import Mathlib

/-!
# amqp-helpers: a shallow embedding of `helpers.go`

The development follows the Go source file `helpers.go`:

* `ParseDeathHeader` re-encodes an `amqp.Table` with `json.Marshal` and decodes the
  document into `Headers` with `json.Unmarshal`; it returns the first `AmqpDeath`.
* `CopyMsgToPublishing` projects an `amqp.Delivery` onto an `amqp.Publishing`.
* `MustBindQueue` and `MustDeclareConsumer` issue a fixed sequence of channel
  requests and terminate the process (`failOnError`) at the first one that fails.

`encoding/json`, `time` and the AMQP channel are collaborators of the source. They
are embedded at the level of JSON documents (the text that `json.Marshal` prints
and `json.Unmarshal` reads back is the same document), of RFC 3339 time stamps,
and of a channel whose requests are functions on a broker state. The values of a
table are the AMQP field types; a Go `int` has 64 bits; strings are valid UTF-8.
-/

namespace Helpers

/-! ## Keys: byte order and case folding -/

/-- Go compares strings byte by byte; on UTF-8 that is the order of code points. -/
def lexLt : List Char → List Char → Bool
  | [], [] => false
  | [], _ :: _ => true
  | _ :: _, [] => false
  | a :: as, b :: bs => a.toNat < b.toNat || (a.toNat == b.toNat && lexLt as bs)

/-- The order `json.Marshal` sorts map keys by. -/
def keyLt (a b : String) : Bool := lexLt a.data b.data

/-- Simple case folding on the orbits of the ASCII letters: `A`..`Z` fold to
`a`..`z`, the Kelvin sign folds to `k` and the long s to `s`. Every struct tag of
`helpers.go` is ASCII, so these are the only characters a tag can match. -/
def foldChar (c : Char) : Char :=
  if c.toNat = 0x212A then 'k' else if c.toNat = 0x17F then 's' else c.toLower

/-- The folded form of a key: two keys match case-insensitively when their folded
forms are equal. -/
def foldName (s : String) : String := String.mk (s.data.map foldChar)

/-! ## JSON documents -/

/-- A JSON number literal, as far as a decoder into Go types can tell them apart:
a literal that `strconv.ParseInt` reads (`-?[0-9]+`), or any other literal (with a
fraction or an exponent), kept as text. -/
inductive NumLit where
  | int (n : Int)
  | nonInt (text : String)
  deriving DecidableEq

/-- A JSON document. Objects keep their members in document order. -/
inductive JSON where
  | null
  | bool (b : Bool)
  | num (l : NumLit)
  | str (s : String)
  | arr (xs : List JSON)
  | obj (kvs : List (String × JSON))

/-! ## `time.Time` and RFC 3339 -/

/-- A `time.Time` as RFC 3339 renders it: civil date and time, nanoseconds, and the
zone offset in minutes east of UTC. -/
structure Time where
  year : Int
  month : Nat
  day : Nat
  hour : Nat
  minute : Nat
  second : Nat
  nano : Nat
  offset : Int
  deriving DecidableEq

/-- The zero `time.Time`: January 1, year 1, 00:00:00 UTC. -/
def Time.zero : Time := ⟨1, 1, 1, 0, 0, 0, 0, 0⟩

def isLeap (y : Int) : Bool := y % 4 == 0 && (y % 100 != 0 || y % 400 == 0)

def daysIn (y : Int) (m : Nat) : Nat :=
  if m = 2 then (if isLeap y then 29 else 28)
  else if m = 4 ∨ m = 6 ∨ m = 9 ∨ m = 11 then 30 else 31

/-- The civil fields are in range. -/
def Time.Valid (t : Time) : Prop :=
  1 ≤ t.month ∧ t.month ≤ 12 ∧ 1 ≤ t.day ∧ t.day ≤ daysIn t.year t.month ∧
  t.hour < 24 ∧ t.minute < 60 ∧ t.second < 60 ∧ t.nano < 1000000000 ∧
  -1440 < t.offset ∧ t.offset < 1440

instance (t : Time) : Decidable t.Valid := by
  unfold Time.Valid; infer_instance

def digitChar (d : Nat) : Char := Char.ofNat (48 + d)

/-- The `k` low decimal digits of `n`, most significant first. -/
def digits : Nat → Nat → List Char
  | 0, _ => []
  | k + 1, n => digits k (n / 10) ++ [digitChar (n % 10)]

def dropTrailingZeros (l : List Char) : List Char :=
  (l.reverse.dropWhile (fun c => c == '0')).reverse

/-- Fractional seconds of layout `.999999999`: omitted when zero, trailing zeros
removed. -/
def formatFrac (nano : Nat) : List Char :=
  if nano = 0 then [] else '.' :: dropTrailingZeros (digits 9 nano)

/-- Zone of layout `Z07:00`. -/
def formatZone (offset : Int) : List Char :=
  if offset = 0 then ['Z']
  else (if offset < 0 then '-' else '+') ::
    (digits 2 (offset.natAbs / 60) ++ [':'] ++ digits 2 (offset.natAbs % 60))

/-- `Time.MarshalJSON`: the RFC 3339 text with nanoseconds; an error when the year
is outside `[0,9999]`. -/
def formatRFC3339 (t : Time) : Option String :=
  if t.year < 0 ∨ 9999 < t.year then none
  else some (String.mk (
    digits 4 t.year.toNat ++ ['-'] ++ digits 2 t.month ++ ['-'] ++ digits 2 t.day ++ ['T'] ++
    digits 2 t.hour ++ [':'] ++ digits 2 t.minute ++ [':'] ++ digits 2 t.second ++
    formatFrac t.nano ++ formatZone t.offset))

def digitVal (c : Char) : Option Nat :=
  if 48 ≤ c.toNat ∧ c.toNat ≤ 57 then some (c.toNat - 48) else none

/-- Read exactly `k` decimal digits. -/
def readDigits : Nat → Nat → List Char → Option (Nat × List Char)
  | 0, acc, cs => some (acc, cs)
  | _ + 1, _, [] => none
  | k + 1, acc, c :: cs =>
    match digitVal c with
    | some d => readDigits k (acc * 10 + d) cs
    | none => none

def expectChar (c : Char) : List Char → Option (List Char)
  | [] => none
  | d :: cs => if d = c then some cs else none

/-- Value of a run of fraction digits as nanoseconds: the first nine digits, padded
with zeros on the right. -/
def fracNanos : Nat → List Char → Nat
  | 0, _ => 0
  | _ + 1, [] => 0
  | k + 1, c :: cs => (digitVal c).getD 0 * 10 ^ k + fracNanos k cs

/-- An optional fraction `.d+`. -/
def readFrac : List Char → Option (Nat × List Char)
  | '.' :: cs =>
    let ds := cs.takeWhile (fun c => (digitVal c).isSome)
    if ds = [] then none else some (fracNanos 9 ds, cs.dropWhile (fun c => (digitVal c).isSome))
  | cs => some (0, cs)

/-- The zone: `Z`, or `+hh:mm` / `-hh:mm` with `hh < 24` and `mm < 60`; nothing may
follow it. -/
def readZone : List Char → Option Int
  | [] => none
  | s :: cs =>
    if s = 'Z' then (if cs = [] then some 0 else none)
    else if s = '+' ∨ s = '-' then
      match readDigits 2 0 cs with
      | some (hh, cs1) =>
        match expectChar ':' cs1 with
        | some cs2 =>
          match readDigits 2 0 cs2 with
          | some (mm, []) =>
            if hh < 24 ∧ mm < 60 then
              some (if s = '-' then -((hh * 60 + mm : Nat) : Int) else ((hh * 60 + mm : Nat) : Int))
            else none
          | _ => none
        | none => none
      | none => none
    else none

/-- `Time.UnmarshalJSON` on the content of a JSON string: strict RFC 3339,
`yyyy-mm-ddThh:mm:ss[.frac](Z|±hh:mm)` with every field in range. -/
def parseRFC3339 (s : String) : Option Time :=
  match readDigits 4 0 s.data with
  | none => none
  | some (y, r1) =>
  match expectChar '-' r1 with
  | none => none
  | some r2 =>
  match readDigits 2 0 r2 with
  | none => none
  | some (mo, r3) =>
  match expectChar '-' r3 with
  | none => none
  | some r4 =>
  match readDigits 2 0 r4 with
  | none => none
  | some (d, r5) =>
  match expectChar 'T' r5 with
  | none => none
  | some r6 =>
  match readDigits 2 0 r6 with
  | none => none
  | some (h, r7) =>
  match expectChar ':' r7 with
  | none => none
  | some r8 =>
  match readDigits 2 0 r8 with
  | none => none
  | some (mi, r9) =>
  match expectChar ':' r9 with
  | none => none
  | some r10 =>
  match readDigits 2 0 r10 with
  | none => none
  | some (sec, r11) =>
  match readFrac r11 with
  | none => none
  | some (ns, r12) =>
  match readZone r12 with
  | none => none
  | some off =>
    let t : Time := ⟨(y : Int), mo, d, h, mi, sec, ns, off⟩
    if t.Valid then some t else none

/-! ## Values of an `amqp.Table` -/

/-- A `float32`/`float64`. A finite one is given by the number literal that
`json.Marshal` prints for it (the shortest decimal that reads back as the same
float); `NaN` and the infinities have no literal. -/
inductive GoFloat where
  | nan
  | posInf
  | negInf
  | finite (lit : NumLit)
  deriving DecidableEq

/-- The dynamic values of an `amqp.Table` (the field types of AMQP 0-9-1): `nil`,
booleans, the integer kinds, floats, strings (valid UTF-8), `[]byte`,
`amqp.Decimal`, `time.Time`, `[]interface{}` and nested tables. A table is the
list of its entries; a key stands for its first entry. -/
inductive Value where
  | null
  | bool (b : Bool)
  | int (n : Int)
  | float (f : GoFloat)
  | str (s : String)
  | bytes (bs : List Nat)
  | decimal (scale : Nat) (value : Int)
  | time (t : Time)
  | array (xs : List Value)
  | table (kvs : List (String × Value))

/-- The Go type `amqp.Table`, `map[string]interface{}`. -/
abbrev Table := List (String × Value)

/-! ## `json.Marshal` -/

def base64Char (n : Nat) : Char :=
  if n < 26 then Char.ofNat (65 + n)
  else if n < 52 then Char.ofNat (97 + (n - 26))
  else if n < 62 then Char.ofNat (48 + (n - 52))
  else if n = 62 then '+' else '/'

/-- Standard base64 with padding, the encoding of a `[]byte`. -/
def base64 : List Nat → List Char
  | [] => []
  | [a] => [base64Char (a / 4), base64Char (a % 4 * 16), '=', '=']
  | [a, b] => [base64Char (a / 4), base64Char (a % 4 * 16 + b / 16), base64Char (b % 16 * 4), '=']
  | a :: b :: c :: rest =>
    base64Char (a / 4) :: base64Char (a % 4 * 16 + b / 16) ::
      base64Char (b % 16 * 4 + c / 64) :: base64Char (c % 64) :: base64 rest

/-- Put a member into an object whose keys ascend, replacing a member of the same
key. -/
def insertField (k : String) (v : JSON) : List (String × JSON) → List (String × JSON)
  | [] => [(k, v)]
  | (k', v') :: rest =>
    if keyLt k k' then (k, v) :: (k', v') :: rest
    else if k = k' then (k, v) :: rest
    else (k', v') :: insertField k v rest

mutual
/-- `json.Marshal` of a value held in an `interface{}`: `None` is the error result.
Maps are printed with their keys in ascending order. -/
def marshalValue : Value → Option JSON
  | .null => some .null
  | .bool b => some (.bool b)
  | .int n => some (.num (.int n))
  | .float .nan => none
  | .float .posInf => none
  | .float .negInf => none
  | .float (.finite l) => some (.num l)
  | .str s => some (.str s)
  | .bytes bs => some (.str (String.mk (base64 (bs.map (fun b => b % 256)))))
  | .decimal scale value => some (.obj [("Scale", .num (.int scale)), ("Value", .num (.int value))])
  | .time t => (formatRFC3339 t).map JSON.str
  | .array xs => (marshalList xs).map JSON.arr
  | .table kvs => (marshalFields kvs).map JSON.obj
/-- The elements of a `[]interface{}`, in order. -/
def marshalList : List Value → Option (List JSON)
  | [] => some []
  | x :: xs =>
    match marshalValue x, marshalList xs with
    | some j, some js => some (j :: js)
    | _, _ => none
/-- The members of a map, keys ascending. -/
def marshalFields : List (String × Value) → Option (List (String × JSON))
  | [] => some []
  | (k, v) :: rest =>
    match marshalValue v, marshalFields rest with
    | some j, some js => some (insertField k j js)
    | _, _ => none
end

/-- `json.Marshal(hs)` for `hs amqp.Table`. -/
def jsonMarshal (hs : Table) : Option JSON := marshalValue (.table hs)

/-! ## `json.Unmarshal` into `Headers` -/

/-- A Go slice: its elements, and what its backing array holds between length and
capacity (elements beyond are zero). The decoder writes array elements in place
over the backing array. -/
structure Slice (α : Type) where
  elems : List α
  spare : List α
  deriving DecidableEq

/-- A slice that owns no spare capacity; `nil` is `Slice.ofList []`. -/
def Slice.ofList {α : Type} (l : List α) : Slice α := ⟨l, []⟩

/-- AmqpDeath is struct of "x-death" header. -/
structure AmqpDeath where
  Count : Int
  Exchange : String
  OriginalExpiration : String
  Queue : String
  Reason : String
  RoutingKeys : Slice String
  Time : Time
  deriving DecidableEq

/-- The zero value of `AmqpDeath`. -/
def AmqpDeath.zero : AmqpDeath := ⟨0, "", "", "", "", Slice.ofList [], Time.zero⟩

/-- Headers is simple header struct we need. -/
structure Headers where
  XDeath : Slice AmqpDeath
  deriving DecidableEq

/-- The fields of `AmqpDeath`. -/
inductive DeathField where
  | count | exchange | originalExpiration | queue | reason | routingKeys | time
  deriving DecidableEq

/-- The `json:"..."` tag of a field. -/
def DeathField.tag : DeathField → String
  | .count => "count"
  | .exchange => "exchange"
  | .originalExpiration => "original-expiration"
  | .queue => "queue"
  | .reason => "reason"
  | .routingKeys => "routing-keys"
  | .time => "time"

def DeathField.all : List DeathField :=
  [.count, .exchange, .originalExpiration, .queue, .reason, .routingKeys, .time]

/-- The field an object key is decoded into: the field with exactly that tag, else
the first field whose tag matches case-insensitively. -/
def findField (k : String) : Option DeathField :=
  match DeathField.all.find? (fun f => f.tag == k) with
  | some f => some f
  | none => DeathField.all.find? (fun f => foldName f.tag == foldName k)

/-- Whether a key of the top-level object is decoded into `Headers.XDeath`. -/
def isXDeathKey (k : String) : Bool := "x-death" == k || foldName "x-death" == foldName k

/-- Decode into a `string`: `null` leaves it, anything but a string is an error. -/
def decodeString (j : JSON) (old : String) : Option String :=
  match j with
  | .null => some old
  | .str s => some s
  | _ => none

/-- Decode into an `int` (64 bits): `null` leaves it; the literal must be an integer
literal within range. -/
def decodeInt (j : JSON) (old : Int) : Option Int :=
  match j with
  | .null => some old
  | .num (.int n) => if -9223372036854775808 ≤ n ∧ n ≤ 9223372036854775807 then some n else none
  | _ => none

/-- Decode into a `time.Time` through `Time.UnmarshalJSON`. -/
def decodeTime (j : JSON) (old : Time) : Option Time :=
  match j with
  | .null => some old
  | .str s => parseRFC3339 s
  | _ => none

/-- Decode the elements of a JSON array in place: element `i` is decoded into what
the backing array holds at `i`. -/
def decodeElems {α : Type} (dec : JSON → α → Option α) (zero : α) :
    List JSON → List α → Option (List α)
  | [], _ => some []
  | j :: js, backing =>
    match dec j (backing.headD zero), decodeElems dec zero js backing.tail with
    | some x, some xs => some (x :: xs)
    | _, _ => none

/-- Decode into a slice: `null` and the empty array give an empty slice, an array
is decoded in place and the length set to its size, anything else is an error. -/
def decodeSlice {α : Type} (dec : JSON → α → Option α) (zero : α) (j : JSON) (old : Slice α) :
    Option (Slice α) :=
  match j with
  | .null => some (Slice.ofList [])
  | .arr [] => some (Slice.ofList [])
  | .arr js =>
    (decodeElems dec zero js (old.elems ++ old.spare)).map
      (fun xs => ⟨xs, (old.elems ++ old.spare).drop js.length⟩)
  | _ => none

/-- Decode one member of an object into the `AmqpDeath` being filled; a key that
matches no field is skipped. -/
def decodeDeathField (k : String) (j : JSON) (d : AmqpDeath) : Option AmqpDeath :=
  match findField k with
  | none => some d
  | some .count => (decodeInt j d.Count).map (fun x => { d with Count := x })
  | some .exchange => (decodeString j d.Exchange).map (fun x => { d with Exchange := x })
  | some .originalExpiration =>
    (decodeString j d.OriginalExpiration).map (fun x => { d with OriginalExpiration := x })
  | some .queue => (decodeString j d.Queue).map (fun x => { d with Queue := x })
  | some .reason => (decodeString j d.Reason).map (fun x => { d with Reason := x })
  | some .routingKeys =>
    (decodeSlice decodeString "" j d.RoutingKeys).map (fun x => { d with RoutingKeys := x })
  | some .time => (decodeTime j d.Time).map (fun x => { d with Time := x })

/-- Decode the members of an object, in document order. -/
def decodeDeathFields : List (String × JSON) → AmqpDeath → Option AmqpDeath
  | [], d => some d
  | (k, j) :: rest, d =>
    match decodeDeathField k j d with
    | some d' => decodeDeathFields rest d'
    | none => none

/-- Decode into an `AmqpDeath`: `null` leaves it, an object fills its fields,
anything else is an error. -/
def decodeDeath (j : JSON) (old : AmqpDeath) : Option AmqpDeath :=
  match j with
  | .null => some old
  | .obj kvs => decodeDeathFields kvs old
  | _ => none

/-- Decode the members of the top-level object into `Headers`. -/
def decodeHeaderFields : List (String × JSON) → Headers → Option Headers
  | [], h => some h
  | (k, j) :: rest, h =>
    if isXDeathKey k then
      match decodeSlice decodeDeath AmqpDeath.zero j h.XDeath with
      | some s => decodeHeaderFields rest ⟨s⟩
      | none => none
    else decodeHeaderFields rest h

/-- `json.Unmarshal(js, &h)` for a zero `h Headers`: `None` is the error result. -/
def jsonUnmarshal (js : JSON) : Option Headers :=
  match js with
  | .null => some ⟨Slice.ofList []⟩
  | .obj kvs => decodeHeaderFields kvs ⟨Slice.ofList []⟩
  | _ => none

/-! ## `ParseDeathHeader` -/

/-- ParseDeathHeader parse "x-death" header from raw. `None` is the `nil` result. -/
def ParseDeathHeader (hs : Table) : Option AmqpDeath :=
  match jsonMarshal hs with
  | none => none
  | some js =>
    match jsonUnmarshal js with
    | none => none
    | some h =>
      if h.XDeath.elems.length = 0 then none
      else h.XDeath.elems.head?

/-! ## `CopyMsgToPublishing` -/

/-- The record `amqp.Delivery` (`Type_` is its field `Type`). `Acknowledger` is the
channel the delivery arrived
on, named by a number; `Body` is a byte string. -/
structure Delivery where
  Acknowledger : Nat
  Headers : Table
  ContentType : String
  ContentEncoding : String
  DeliveryMode : Nat
  Priority : Nat
  CorrelationId : String
  ReplyTo : String
  Expiration : String
  MessageId : String
  Timestamp : Time
  Type_ : String
  UserId : String
  AppId : String
  ConsumerTag : String
  MessageCount : Nat
  DeliveryTag : Nat
  Redelivered : Bool
  Exchange : String
  RoutingKey : String
  Body : List Nat

/-- The record `amqp.Publishing`. -/
structure Publishing where
  Headers : Table
  ContentType : String
  ContentEncoding : String
  DeliveryMode : Nat
  Priority : Nat
  CorrelationId : String
  ReplyTo : String
  Expiration : String
  MessageId : String
  Timestamp : Time
  Type_ : String
  UserId : String
  AppId : String
  Body : List Nat

/-- CopyMsgToPublishing copy an Delivery msg into Publishing. -/
def CopyMsgToPublishing (msg : Delivery) : Publishing :=
  { Headers := msg.Headers
    ContentType := msg.ContentType
    ContentEncoding := msg.ContentEncoding
    DeliveryMode := msg.DeliveryMode
    Priority := msg.Priority
    CorrelationId := msg.CorrelationId
    ReplyTo := msg.ReplyTo
    Expiration := msg.Expiration
    MessageId := msg.MessageId
    Timestamp := msg.Timestamp
    Type_ := msg.Type_
    UserId := msg.UserId
    AppId := msg.AppId
    Body := msg.Body }

/-! ## The channel and the topology helpers -/

/-- The record `amqp.Queue` that `QueueDeclare` answers with. -/
structure Queue where
  Name : String
  Messages : Nat
  Consumers : Nat
  deriving DecidableEq

/-- What a channel request comes back with: Go's value and error, and the broker
state after the request. -/
structure Reply (σ α : Type) where
  val : α
  err : Option String
  state : σ

/-- The requests of `*amqp.Channel` that `helpers.go` makes, as functions on the
broker state `σ`; `δ` is the type of a delivery stream. A `nil` table is `[]`. -/
structure Channel (σ δ : Type) where
  QueueDeclare : String → Bool → Bool → Bool → Bool → Table → σ → Reply σ Queue
  QueueBind : String → String → String → Bool → Table → σ → Reply σ Unit
  Qos : Nat → Nat → Bool → σ → Reply σ Unit
  Consume : String → String → Bool → Bool → Bool → Bool → Table → σ → Reply σ δ

/-- How a helper call ends: it returns, or `log.Fatalf` ends the process with a
line; either way the broker is left in a state. -/
inductive Outcome (σ α : Type) where
  | returned (val : α) (state : σ)
  | exited (line : String) (state : σ)

/-- The broker state a call leaves behind. -/
def Outcome.state {σ α : Type} : Outcome σ α → σ
  | .returned _ s => s
  | .exited _ s => s

/-- Whether the call ended the process. -/
def Outcome.failed {σ α : Type} : Outcome σ α → Bool
  | .returned _ _ => false
  | .exited _ _ => true

/-- The source's `failOnError`: with an error, `log.Fatalf("%s: %s", msg, err)` ends
the process (the `panic` after it is not reached); the answer is that line. -/
def failOnError (err : Option String) (msg : String) : Option String :=
  match err with
  | some e => some (msg ++ ": " ++ e)
  | none => none

/-- The loop `for _, s := range routerKeys` of both helpers: bind the queue under
each key in turn, ending the process at the first binding that fails. The line
that `log.Printf` writes before each binding is no part of the broker state. -/
def bindKeys {σ δ : Type} (ch : Channel σ δ) (exchange qName : String) :
    List String → σ → Outcome σ Unit
  | [], s => .returned () s
  | k :: ks, s =>
    let r := ch.QueueBind qName k exchange false [] s
    match failOnError r.err "Failed to bind a queue" with
    | some line => .exited line r.state
    | none => bindKeys ch exchange qName ks r.state

/-- MustBindQueue bind queue to exchange or die. -/
def MustBindQueue {σ δ : Type} (ch : Channel σ δ) (exchange qName : String)
    (routerKeys : List String) (args : Table) (s : σ) : Outcome σ Unit :=
  let r := ch.QueueDeclare qName true false false false args s
  match failOnError r.err "Failed to declare a queue" with
  | some line => .exited line r.state
  | none => bindKeys ch exchange r.val.Name routerKeys r.state

/-- MustDeclareConsumer declare a consumer delivery chan or die. -/
def MustDeclareConsumer {σ δ : Type} (ch : Channel σ δ) (exchange qName : String)
    (routerKeys : List String) (args : Table) (s : σ) : Outcome σ δ :=
  let r := ch.QueueDeclare qName false false false false args s
  match failOnError r.err "Failed to declare a queue" with
  | some line => .exited line r.state
  | none =>
    match bindKeys ch exchange r.val.Name routerKeys r.state with
    | .exited line s1 => .exited line s1
    | .returned _ s1 =>
      let r2 := ch.Qos 5 0 false s1
      match failOnError r2.err "Failed to set QoS" with
      | some line => .exited line r2.state
      | none =>
        let r3 := ch.Consume r.val.Name "" false false false false [] r2.state
        match failOnError r3.err "Failed to register a consumer" with
        | some line => .exited line r3.state
        | none => .returned r3.val r3.state

/-- A request as the broker receives it. -/
inductive Request where
  | queueDeclare (name : String) (durable autoDelete exclusive noWait : Bool) (args : Table)
  | queueBind (name key exchange : String) (noWait : Bool) (args : Table)
  | qos (prefetchCount prefetchSize : Nat) (global : Bool)
  | consume (queue consumer : String) (autoAck exclusive noLocal noWait : Bool) (args : Table)

/-- A broker that grants every request and keeps the list of them, oldest first. A
queue keeps the name it was declared with; declared with the empty name, the
broker names it `amq.gen-1`. -/
def recorder : Channel (List Request) String :=
  { QueueDeclare := fun name durable autoDelete exclusive noWait args s =>
      ⟨⟨if name = "" then "amq.gen-1" else name, 0, 0⟩, none,
        s ++ [.queueDeclare name durable autoDelete exclusive noWait args]⟩
    QueueBind := fun name key exchange noWait args s =>
      ⟨(), none, s ++ [.queueBind name key exchange noWait args]⟩
    Qos := fun count size global s => ⟨(), none, s ++ [.qos count size global]⟩
    Consume := fun queue consumer autoAck exclusive noLocal noWait args s =>
      ⟨queue, none, s ++ [.consume queue consumer autoAck exclusive noLocal noWait args]⟩ }

/-- The topology a broker holds, and how many more requests its connection serves
before it is lost. -/
structure Broker where
  queues : List (String × Bool)
  bindings : List (String × String × String)
  prefetch : Option (Nat × Nat × Bool)
  consumers : List String
  budget : Nat
  deriving DecidableEq

/-- Serve one request on `Broker`: with no budget left the request fails and the
broker is unchanged, else the change is applied. -/
def Broker.serve {α : Type} (val : α) (change : Broker → Broker) (b : Broker) : Reply Broker α :=
  match b.budget with
  | 0 => ⟨val, some "channel/connection is not open", b⟩
  | n + 1 => ⟨val, none, change { b with budget := n }⟩

/-- A channel to a `Broker`: a declared queue is added to `queues` (name and
durability), a binding to `bindings` (queue, key, exchange). -/
def lossy : Channel Broker String :=
  { QueueDeclare := fun name durable _ _ _ _ =>
      Broker.serve ⟨name, 0, 0⟩ (fun b => { b with queues := b.queues ++ [(name, durable)] })
    QueueBind := fun name key exchange _ _ =>
      Broker.serve () (fun b => { b with bindings := b.bindings ++ [(name, key, exchange)] })
    Qos := fun count size global =>
      Broker.serve () (fun b => { b with prefetch := some (count, size, global) })
    Consume := fun queue _ _ _ _ _ _ =>
      Broker.serve queue (fun b => { b with consumers := b.consumers ++ [queue] }) }

/-- The prefetch count of a `Qos` request. -/
def Request.prefetchCount? : Request → Option Nat
  | .qos n _ _ => some n
  | _ => none

/-- The requests that the spec's `startConsuming(queueHandle, prefetchCount)` stands
for: a prefetch limit of `prefetchCount`, then a delivery stream with manual
acknowledgment. -/
def startConsuming (queue : String) (prefetchCount : Nat) : List Request :=
  [.qos prefetchCount 0 false, .consume queue "" false false false false []]

/-! ## Predicates used by the theorems -/

/-- The broker state after the queue is bound under every key in turn, when every
binding succeeds; `None` when one fails. -/
def boundState {σ δ : Type} (ch : Channel σ δ) (exchange qName : String) :
    List String → σ → Option σ
  | [], s => some s
  | k :: ks, s =>
    match (ch.QueueBind qName k exchange false [] s).err with
    | none => boundState ch exchange qName ks (ch.QueueBind qName k exchange false [] s).state
    | some _ => none

/-- The keys of an object ascend strictly. -/
def Ascending (fs : List (String × JSON)) : Prop :=
  fs.Pairwise (fun x y => keyLt x.1 y.1 = true)

/-- A value that is neither `nil` nor a sequence nor a mapping-like record: a
boolean, a number, a string, a byte string or a time. -/
def Value.isScalar : Value → Bool
  | .bool _ => true
  | .int _ => true
  | .float _ => true
  | .str _ => true
  | .bytes _ => true
  | .time _ => true
  | _ => false

/-- No key of the entry is a case variant of a field tag: a key that is decoded
into a field is the tag itself. -/
def plainKeys (e : Table) : Bool :=
  e.all (fun kv =>
    match findField kv.1 with
    | some f => kv.1 == f.tag
    | none => true)

/-- The count an entry carries: 0 when absent or `nil`, else a 64-bit integer. -/
def readCount : Option Value → Option Int
  | none => some 0
  | some .null => some 0
  | some (.int n) =>
    if -9223372036854775808 ≤ n ∧ n ≤ 9223372036854775807 then some n else none
  | _ => none

/-- A name an entry carries: empty when absent or `nil`, else a string. -/
def readString : Option Value → Option String
  | none => some ""
  | some .null => some ""
  | some (.str s) => some s
  | _ => none

/-- The strings of a sequence of strings. -/
def readStrings : List Value → Option (List String)
  | [] => some []
  | .str s :: rest =>
    match readStrings rest with
    | some ss => some (s :: ss)
    | none => none
  | _ :: _ => none

/-- The routing keys an entry carries: none when absent or `nil`, else a sequence
of strings. -/
def readKeys : Option Value → Option (Slice String)
  | none => some (Slice.ofList [])
  | some .null => some (Slice.ofList [])
  | some (.array xs) =>
    match readStrings xs with
    | some ss => some (Slice.ofList ss)
    | none => none
  | _ => none

/-- The time an entry carries: January 1 of year 1, UTC, when absent or `nil`; a
time stamp with civil fields in range and a year in `[0,9999]`; or the time that an
RFC 3339 text denotes. -/
def readTime : Option Value → Option Time
  | none => some ⟨1, 1, 1, 0, 0, 0, 0, 0⟩
  | some .null => some ⟨1, 1, 1, 0, 0, 0, 0, 0⟩
  | some (.time t) => if t.Valid ∧ 0 ≤ t.year ∧ t.year ≤ 9999 then some t else none
  | some (.str s) => parseRFC3339 s
  | _ => none

/-- The record a dead-letter entry carries, read field by field from the mapping;
`None` when a field has a value of another type. -/
def entryRecord (e : Table) : Option AmqpDeath :=
  match readCount (e.lookup "count"), readString (e.lookup "exchange"),
    readString (e.lookup "original-expiration"), readString (e.lookup "queue"),
    readString (e.lookup "reason"), readKeys (e.lookup "routing-keys"),
    readTime (e.lookup "time") with
  | some c, some ex, some oe, some q, some r, some ks, some t => some ⟨c, ex, oe, q, r, ks, t⟩
  | _, _, _, _, _, _, _ => none

/-! ## `json.Unmarshal` into `map[string]interface{}` -/

/-- The number of binary digits of `n` (`fuel` bounds the recursion; `n` is
enough). -/
def bitLen : Nat → Nat → Nat
  | 0, _ => 0
  | fuel + 1, n => if n = 0 then 0 else bitLen fuel (n / 2) + 1

/-- The number of decimal digits of `n` (`fuel` bounds the recursion). -/
def decLen : Nat → Nat → Nat
  | 0, _ => 0
  | fuel + 1, n => if n = 0 then 0 else decLen fuel (n / 10) + 1

/-- The shortest decimal integer that reads back as the float of value `v4 / 4`,
whose rounding interval is `lo4 / 4` to `hi4 / 4` (ends included when `incl`):
multiples of `10 ^ k` are tried for `k` from the given one down to 0; of two
multiples that fit, the nearer to the value is taken, the even one on a tie. -/
def shortestInt (v4 lo4 hi4 : Nat) (incl : Bool) : Nat → Nat
  | 0 => v4 / 4
  | k + 1 =>
    let p := 10 ^ (k + 1)
    let c1 := v4 / 4 / p * p
    let c2 := c1 + p
    let fits := fun c : Nat =>
      if incl then decide (lo4 ≤ 4 * c ∧ 4 * c ≤ hi4) else decide (lo4 < 4 * c ∧ 4 * c < hi4)
    if fits c1 && fits c2 then
      (if v4 - 4 * c1 < 4 * c2 - v4 then c1
       else if 4 * c2 - v4 < v4 - 4 * c1 then c2
       else if c1 / p % 2 = 0 then c1 else c2)
    else if fits c1 then c1
    else if fits c2 then c2
    else shortestInt v4 lo4 hi4 incl k

/-- Drop the trailing zeros of a decimal numeral (`fuel` bounds the recursion). -/
def stripZeros : Nat → Nat → Nat
  | 0, n => n
  | fuel + 1, n => if n ≠ 0 ∧ n % 10 = 0 then stripZeros fuel (n / 10) else n

/-- The text of layout `d.ddde+xx` for a positive integer `s` of 22 digits or
more. -/
def expText (s : Nat) : List Char :=
  let ds := Nat.toDigits 10 (stripZeros s s)
  let e := decLen s s - 1
  (match ds with
   | [] => []
   | [d] => [d]
   | d :: rest => d :: '.' :: rest) ++ ['e', '+'] ++ Nat.toDigits 10 e

/-- The literal that `json.Marshal` prints for `float64(n)`, the float nearest to
the integer `n` (ties to the even mantissa); `None` when `n` is beyond the range of
`float64`. An integer up to `2 ^ 53` is a float and prints as itself; beyond, the
float is `m * 2 ^ e` with `2 ^ 52 <= m < 2 ^ 53`, and the literal is the shortest
decimal that reads back as that float, with an exponent from `1e21` on. -/
def float64Literal (n : Int) : Option NumLit :=
  let a := n.natAbs
  if a ≤ 2 ^ 53 then some (.int n)
  else
    let e0 := bitLen a a - 53
    let q := a / 2 ^ e0
    let r := a % 2 ^ e0
    let m0 := if 2 ^ (e0 - 1) < r ∨ (r = 2 ^ (e0 - 1) ∧ q % 2 = 1) then q + 1 else q
    let m := if m0 = 2 ^ 53 then 2 ^ 52 else m0
    let e := if m0 = 2 ^ 53 then e0 + 1 else e0
    if 971 < e then none
    else
      let v := m * 2 ^ e
      let down4 := if m = 2 ^ 52 then 2 ^ e else 2 ^ (e + 1)
      let s := shortestInt (4 * v) (4 * v - down4) (4 * v + 2 ^ (e + 1)) (m % 2 == 0) (decLen v v)
      if s < 10 ^ 21 then some (.int (if n < 0 then -(s : Int) else (s : Int)))
      else some (.nonInt (String.mk ((if n < 0 then ['-'] else []) ++ expText s)))

/-- A JSON number decoded into an `interface{}`: a `float64`. A literal with a
fraction or an exponent is a literal that `json.Marshal` printed for a float, and
reads back as that float. -/
def genericNum : NumLit → Option Value
  | .int n => (float64Literal n).map (fun l => Value.float (.finite l))
  | .nonInt t => some (.float (.finite (.nonInt t)))

mutual
/-- `json.Unmarshal` of a document into an `interface{}`: `nil`, `bool`, `float64`,
`string`, `[]interface{}` and `map[string]interface{}`. -/
def genericDecode : JSON → Option Value
  | .null => some .null
  | .bool b => some (.bool b)
  | .num l => genericNum l
  | .str s => some (.str s)
  | .arr xs => (genericDecodeList xs).map Value.array
  | .obj kvs => (genericDecodeFields kvs).map Value.table
/-- The elements of an array, in order. -/
def genericDecodeList : List JSON → Option (List Value)
  | [] => some []
  | x :: xs =>
    match genericDecode x, genericDecodeList xs with
    | some v, some vs => some (v :: vs)
    | _, _ => none
/-- The members of an object as map entries; of two members with one key, the
later one stays. -/
def genericDecodeFields : List (String × JSON) → Option (List (String × Value))
  | [] => some []
  | (k, j) :: rest =>
    match genericDecode j, genericDecodeFields rest with
    | some v, some vs => some (if (vs.lookup k).isSome then vs else (k, v) :: vs)
    | _, _ => none
end

/-- The mapping obtained by decoding `json.Marshal(hs)` back into a
`map[string]interface{}`; `None` when either step fails. -/
def reencode (hs : Table) : Option Table :=
  match jsonMarshal hs with
  | none => none
  | some js =>
    match genericDecode js with
    | some (.table kvs) => some kvs
    | _ => none

/-- The literal that a number literal becomes when it is read as a `float64` and
printed again. -/
def refloatNum : NumLit → Option NumLit
  | .int n => float64Literal n
  | .nonInt t => some (.nonInt t)

mutual
/-- The document with every number read as a `float64` and printed again. -/
def refloat : JSON → Option JSON
  | .null => some .null
  | .bool b => some (.bool b)
  | .num l => (refloatNum l).map JSON.num
  | .str s => some (.str s)
  | .arr xs => (refloatList xs).map JSON.arr
  | .obj kvs => (refloatFields kvs).map JSON.obj
/-- The elements of an array, each with its numbers read and printed again. -/
def refloatList : List JSON → Option (List JSON)
  | [] => some []
  | x :: xs =>
    match refloat x, refloatList xs with
    | some y, some ys => some (y :: ys)
    | _, _ => none
/-- The members of an object, each with its numbers read and printed again. -/
def refloatFields : List (String × JSON) → Option (List (String × JSON))
  | [] => some []
  | (k, j) :: rest =>
    match refloat j, refloatFields rest with
    | some y, some ys => some ((k, y) :: ys)
    | _, _ => none
end

/-- A value that, if it is a number, survives `float64`: read as a `float64` and
printed again it is the same literal. Every integer up to `2 ^ 53` in magnitude
does. -/
def numSurvives : Value → Bool
  | .int n => decide (refloatNum (.int n) = some (.int n))
  | .float (.finite l) => decide (refloatNum l = some l)
  | _ => true

/-- In an entry, every number under a key that is decoded into `Count` survives
`float64`. -/
def entrySurvives : Value → Bool
  | .table kvs => kvs.all (fun kv => findField kv.1 != some .count || numSurvives kv.2)
  | _ => true

/-- Every number of the mapping that `ParseDeathHeader` decodes into a `Count`
survives `float64`: the numbers under `count` (or a case variant) in the entries of
the sequences under `x-death` (or a case variant). -/
def countsSurvive (hs : Table) : Bool :=
  hs.all (fun kv =>
    !isXDeathKey kv.1 ||
      match kv.2 with
      | .array es => es.all entrySurvives
      | _ => true)

/-- Decoded into an `interface{}` and encoded again, the document is the one with
its numbers read as `float64` and printed again. -/
def Rereads (j : JSON) : Prop :=
  ∀ v, genericDecode j = some v → ∃ j', refloat j = some j' ∧ marshalValue v = some j'

/-! ## Theorems: `CopyMsgToPublishing` -/

/-- C4: `CopyMsgToPublishing` copies the fourteen content fields of the delivery
unchanged, and its result does not depend on the delivery's `Exchange` and
`RoutingKey`. -/
theorem CopyMsgToPublishing_projects (msg : Delivery) :
    ((CopyMsgToPublishing msg).Headers = msg.Headers ∧
      (CopyMsgToPublishing msg).ContentType = msg.ContentType ∧
      (CopyMsgToPublishing msg).ContentEncoding = msg.ContentEncoding ∧
      (CopyMsgToPublishing msg).DeliveryMode = msg.DeliveryMode ∧
      (CopyMsgToPublishing msg).Priority = msg.Priority ∧
      (CopyMsgToPublishing msg).CorrelationId = msg.CorrelationId ∧
      (CopyMsgToPublishing msg).ReplyTo = msg.ReplyTo ∧
      (CopyMsgToPublishing msg).Expiration = msg.Expiration ∧
      (CopyMsgToPublishing msg).MessageId = msg.MessageId ∧
      (CopyMsgToPublishing msg).Timestamp = msg.Timestamp ∧
      (CopyMsgToPublishing msg).Type_ = msg.Type_ ∧
      (CopyMsgToPublishing msg).UserId = msg.UserId ∧
      (CopyMsgToPublishing msg).AppId = msg.AppId ∧
      (CopyMsgToPublishing msg).Body = msg.Body) ∧
    ∀ exchange routingKey : String,
      CopyMsgToPublishing { msg with Exchange := exchange, RoutingKey := routingKey } =
        CopyMsgToPublishing msg :=
  ⟨⟨rfl, rfl, rfl, rfl, rfl, rfl, rfl, rfl, rfl, rfl, rfl, rfl, rfl, rfl⟩, fun _ _ => rfl⟩

/-! ## Theorems: the topology helpers -/

theorem failOnError_some (e msg : String) : failOnError (some e) msg = some (msg ++ ": " ++ e) := rfl

theorem failOnError_none (msg : String) : failOnError none msg = none := rfl

/-- When every binding succeeds the loop returns, in the state after the last
one. -/
theorem bindKeys_of_boundState {σ δ : Type} (ch : Channel σ δ) (exchange qName : String)
    (keys : List String) (s s1 : σ) (h : boundState ch exchange qName keys s = some s1) :
    bindKeys ch exchange qName keys s = .returned () s1 := by
  induction keys generalizing s with
  | nil =>
    simp only [boundState, Option.some.injEq] at h
    subst h; rfl
  | cons k ks ih =>
    simp only [boundState] at h
    cases hb : (ch.QueueBind qName k exchange false [] s).err with
    | some e => simp [hb] at h
    | none =>
      simp only [hb] at h
      simp only [bindKeys, hb, failOnError_none]
      exact ih _ h

/-- A binding that fails after the bindings before it succeeded ends the process
there. -/
theorem bindKeys_of_failure {σ δ : Type} (ch : Channel σ δ) (exchange qName : String)
    (pre : List String) (k : String) (post : List String) (s s2 : σ) (e : String)
    (h : boundState ch exchange qName pre s = some s2)
    (hk : (ch.QueueBind qName k exchange false [] s2).err = some e) :
    bindKeys ch exchange qName (pre ++ k :: post) s =
      .exited ("Failed to bind a queue" ++ ": " ++ e)
        (ch.QueueBind qName k exchange false [] s2).state := by
  induction pre generalizing s with
  | nil =>
    simp only [boundState, Option.some.injEq] at h
    subst h
    simp only [List.nil_append, bindKeys, hk, failOnError_some]
  | cons x xs ih =>
    simp only [boundState] at h
    cases hb : (ch.QueueBind qName x exchange false [] s).err with
    | some e' => simp [hb] at h
    | none =>
      simp only [hb] at h
      simp only [List.cons_append, bindKeys, hb, failOnError_none]
      exact ih _ h

/-- A loop that ends the process stopped at its first failing binding. -/
theorem bindKeys_exited {σ δ : Type} (ch : Channel σ δ) (exchange qName : String)
    (keys : List String) (s : σ) (line : String) (s' : σ)
    (h : bindKeys ch exchange qName keys s = .exited line s') :
    ∃ pre k post s2 e, keys = pre ++ k :: post ∧
      boundState ch exchange qName pre s = some s2 ∧
      (ch.QueueBind qName k exchange false [] s2).err = some e ∧
      line = "Failed to bind a queue" ++ ": " ++ e ∧
      s' = (ch.QueueBind qName k exchange false [] s2).state := by
  induction keys generalizing s with
  | nil => simp [bindKeys] at h
  | cons k ks ih =>
    cases hb : (ch.QueueBind qName k exchange false [] s).err with
    | some e =>
      simp only [bindKeys, hb, failOnError_some] at h
      injection h with h1 h2
      exact ⟨[], k, ks, s, e, rfl, rfl, hb, h1.symm, h2.symm⟩
    | none =>
      simp only [bindKeys, hb, failOnError_none] at h
      obtain ⟨pre, k', post, s2, e, hk, hpre, he, hl, hs⟩ := ih _ h
      refine ⟨k :: pre, k', post, s2, e, by simp [hk], ?_, he, hl, hs⟩
      simp only [boundState, hb, hpre]

/-- A loop that returns made every binding. -/
theorem boundState_of_returned {σ δ : Type} (ch : Channel σ δ) (exchange qName : String)
    (keys : List String) (s s1 : σ) (u : Unit)
    (h : bindKeys ch exchange qName keys s = .returned u s1) :
    boundState ch exchange qName keys s = some s1 := by
  induction keys generalizing s with
  | nil =>
    simp only [bindKeys] at h
    injection h with _ h2
    subst h2; rfl
  | cons k ks ih =>
    cases hb : (ch.QueueBind qName k exchange false [] s).err with
    | some e => simp [bindKeys, hb, failOnError_some] at h
    | none =>
      simp only [bindKeys, hb, failOnError_none] at h
      simp only [boundState, hb]
      exact ih _ h

/-- C6, the claim as stated fails: on a connection that serves two requests,
`MustBindQueue` with keys `a`, `b` ends the process, and the broker, empty before,
holds the queue and the binding of `a`. -/
theorem MustBindQueue_leaves_partial_topology :
    (MustBindQueue lossy "ex" "q" ["a", "b"] [] ⟨[], [], none, [], 2⟩).failed = true ∧
    (MustBindQueue lossy "ex" "q" ["a", "b"] [] ⟨[], [], none, [], 2⟩).state.queues
      = [("q", true)] ∧
    (MustBindQueue lossy "ex" "q" ["a", "b"] [] ⟨[], [], none, [], 2⟩).state.bindings
      = [("q", "a", "ex")] := by
  decide

/-- C6, amended: `MustBindQueue` and `MustDeclareConsumer` stop at the first
failing request and undo nothing. A failing queue declaration, a failing binding
after the bindings before it succeeded, and (for the consumer) a failing QoS
request or consumer registration after all before it succeeded, each end the
process with the line of that step and leave the broker in the state that request
left; and the process is ended in no other way. -/
theorem topology_setup_stops_at_first_failure {σ δ : Type} (ch : Channel σ δ)
    (exchange qName : String) (routerKeys : List String) (args : Table) (s : σ) :
    ((∀ e, (ch.QueueDeclare qName true false false false args s).err = some e →
        MustBindQueue ch exchange qName routerKeys args s =
          .exited ("Failed to declare a queue" ++ ": " ++ e)
            (ch.QueueDeclare qName true false false false args s).state) ∧
      (∀ pre k post s2 e,
        (ch.QueueDeclare qName true false false false args s).err = none →
        routerKeys = pre ++ k :: post →
        boundState ch exchange (ch.QueueDeclare qName true false false false args s).val.Name pre
          (ch.QueueDeclare qName true false false false args s).state = some s2 →
        (ch.QueueBind (ch.QueueDeclare qName true false false false args s).val.Name k exchange
          false [] s2).err = some e →
        MustBindQueue ch exchange qName routerKeys args s =
          .exited ("Failed to bind a queue" ++ ": " ++ e)
            (ch.QueueBind (ch.QueueDeclare qName true false false false args s).val.Name k
              exchange false [] s2).state) ∧
      (∀ line s', MustBindQueue ch exchange qName routerKeys args s = .exited line s' →
        (∃ e, (ch.QueueDeclare qName true false false false args s).err = some e) ∨
        (∃ pre k post s2 e, routerKeys = pre ++ k :: post ∧
          boundState ch exchange (ch.QueueDeclare qName true false false false args s).val.Name
            pre (ch.QueueDeclare qName true false false false args s).state = some s2 ∧
          (ch.QueueBind (ch.QueueDeclare qName true false false false args s).val.Name k
            exchange false [] s2).err = some e))) ∧
    ((∀ e, (ch.QueueDeclare qName false false false false args s).err = some e →
        MustDeclareConsumer ch exchange qName routerKeys args s =
          .exited ("Failed to declare a queue" ++ ": " ++ e)
            (ch.QueueDeclare qName false false false false args s).state) ∧
      (∀ pre k post s2 e,
        (ch.QueueDeclare qName false false false false args s).err = none →
        routerKeys = pre ++ k :: post →
        boundState ch exchange (ch.QueueDeclare qName false false false false args s).val.Name
          pre (ch.QueueDeclare qName false false false false args s).state = some s2 →
        (ch.QueueBind (ch.QueueDeclare qName false false false false args s).val.Name k exchange
          false [] s2).err = some e →
        MustDeclareConsumer ch exchange qName routerKeys args s =
          .exited ("Failed to bind a queue" ++ ": " ++ e)
            (ch.QueueBind (ch.QueueDeclare qName false false false false args s).val.Name k
              exchange false [] s2).state) ∧
      (∀ s1 e,
        (ch.QueueDeclare qName false false false false args s).err = none →
        boundState ch exchange (ch.QueueDeclare qName false false false false args s).val.Name
          routerKeys (ch.QueueDeclare qName false false false false args s).state = some s1 →
        (ch.Qos 5 0 false s1).err = some e →
        MustDeclareConsumer ch exchange qName routerKeys args s =
          .exited ("Failed to set QoS" ++ ": " ++ e) (ch.Qos 5 0 false s1).state) ∧
      (∀ s1 e,
        (ch.QueueDeclare qName false false false false args s).err = none →
        boundState ch exchange (ch.QueueDeclare qName false false false false args s).val.Name
          routerKeys (ch.QueueDeclare qName false false false false args s).state = some s1 →
        (ch.Qos 5 0 false s1).err = none →
        (ch.Consume (ch.QueueDeclare qName false false false false args s).val.Name "" false
          false false false [] (ch.Qos 5 0 false s1).state).err = some e →
        MustDeclareConsumer ch exchange qName routerKeys args s =
          .exited ("Failed to register a consumer" ++ ": " ++ e)
            (ch.Consume (ch.QueueDeclare qName false false false false args s).val.Name "" false
              false false false [] (ch.Qos 5 0 false s1).state).state) ∧
      (∀ line s', MustDeclareConsumer ch exchange qName routerKeys args s = .exited line s' →
        (∃ e, (ch.QueueDeclare qName false false false false args s).err = some e) ∨
        (∃ pre k post s2 e, routerKeys = pre ++ k :: post ∧
          boundState ch exchange (ch.QueueDeclare qName false false false false args s).val.Name
            pre (ch.QueueDeclare qName false false false false args s).state = some s2 ∧
          (ch.QueueBind (ch.QueueDeclare qName false false false false args s).val.Name k
            exchange false [] s2).err = some e) ∨
        (∃ s1, boundState ch exchange
            (ch.QueueDeclare qName false false false false args s).val.Name routerKeys
            (ch.QueueDeclare qName false false false false args s).state = some s1 ∧
          ((∃ e, (ch.Qos 5 0 false s1).err = some e) ∨
           (∃ e, (ch.Consume (ch.QueueDeclare qName false false false false args s).val.Name ""
              false false false false [] (ch.Qos 5 0 false s1).state).err = some e))))) := by
  refine ⟨⟨?_, ?_, ?_⟩, ⟨?_, ?_, ?_, ?_, ?_⟩⟩
  · intro e hd
    simp only [MustBindQueue, hd, failOnError_some]
  · intro pre k post s2 e hd hk hpre he
    simp only [MustBindQueue, hd, failOnError_none, hk]
    exact bindKeys_of_failure ch exchange _ pre k post _ s2 e hpre he
  · intro line s' h
    cases hd : (ch.QueueDeclare qName true false false false args s).err with
    | some e => exact Or.inl ⟨e, rfl⟩
    | none =>
      simp only [MustBindQueue, hd, failOnError_none] at h
      obtain ⟨pre, k, post, s2, e, h1, h2, h3, _, _⟩ := bindKeys_exited ch exchange _ _ _ _ _ h
      exact Or.inr ⟨pre, k, post, s2, e, h1, h2, h3⟩
  · intro e hd
    simp only [MustDeclareConsumer, hd, failOnError_some]
  · intro pre k post s2 e hd hk hpre he
    simp only [MustDeclareConsumer, hd, failOnError_none, hk,
      bindKeys_of_failure ch exchange _ pre k post _ s2 e hpre he]
  · intro s1 e hd hb hq
    simp only [MustDeclareConsumer, hd, failOnError_none,
      bindKeys_of_boundState ch exchange _ routerKeys _ s1 hb, hq, failOnError_some]
  · intro s1 e hd hb hq hc
    simp only [MustDeclareConsumer, hd, failOnError_none,
      bindKeys_of_boundState ch exchange _ routerKeys _ s1 hb, hq, hc, failOnError_some]
  · intro line s' h
    cases hd : (ch.QueueDeclare qName false false false false args s).err with
    | some e => exact Or.inl ⟨e, rfl⟩
    | none =>
      simp only [MustDeclareConsumer, hd, failOnError_none] at h
      cases hb : bindKeys ch exchange (ch.QueueDeclare qName false false false false args s).val.Name
          routerKeys (ch.QueueDeclare qName false false false false args s).state with
      | exited l1 s1 =>
        obtain ⟨pre, k, post, s2, e, h1, h2, h3, _, _⟩ :=
          bindKeys_exited ch exchange _ _ _ _ _ hb
        exact Or.inr (Or.inl ⟨pre, k, post, s2, e, h1, h2, h3⟩)
      | returned u s1 =>
        rw [hb] at h
        simp only at h
        refine Or.inr (Or.inr ⟨s1, boundState_of_returned ch exchange _ _ _ _ u hb, ?_⟩)
        cases hq : (ch.Qos 5 0 false s1).err with
        | some e => exact Or.inl ⟨e, rfl⟩
        | none =>
          simp only [hq, failOnError_none] at h
          cases hc : (ch.Consume (ch.QueueDeclare qName false false false false args s).val.Name ""
              false false false false [] (ch.Qos 5 0 false s1).state).err with
          | some e => exact Or.inr ⟨e, rfl⟩
          | none =>
            simp only [hc, failOnError_none] at h
            cases h

/-- Witness of C6 amended: on a connection that serves two requests,
`MustBindQueue` with keys `a`, `b` ends at the binding of `b`, and
`MustDeclareConsumer` with key `a` ends at the QoS request; each leaves what the
earlier requests built. -/
theorem topology_setup_stops_at_first_failure_witness :
    MustBindQueue lossy "ex" "q" ["a", "b"] [] ⟨[], [], none, [], 2⟩ =
      .exited ("Failed to bind a queue" ++ ": " ++ "channel/connection is not open")
        ⟨[("q", true)], [("q", "a", "ex")], none, [], 0⟩ ∧
    MustDeclareConsumer lossy "ex" "q" ["a"] [] ⟨[], [], none, [], 2⟩ =
      .exited ("Failed to set QoS" ++ ": " ++ "channel/connection is not open")
        ⟨[("q", false)], [("q", "a", "ex")], none, [], 0⟩ :=
  ⟨(topology_setup_stops_at_first_failure lossy "ex" "q" ["a", "b"] []
      ⟨[], [], none, [], 2⟩).1.2.1 ["a"] "b" [] ⟨[("q", true)], [("q", "a", "ex")], none, [], 0⟩
      "channel/connection is not open" rfl rfl rfl rfl,
   (topology_setup_stops_at_first_failure lossy "ex" "q" ["a"] []
      ⟨[], [], none, [], 2⟩).2.2.2.1 ⟨[("q", false)], [("q", "a", "ex")], none, [], 0⟩
      "channel/connection is not open" rfl rfl rfl⟩

/-- C8, the claim as stated fails: a caller who wants a prefetch limit of 10 has no
way to pass it; the QoS request of the call carries 5. -/
theorem MustDeclareConsumer_ignores_caller_prefetch :
    (MustDeclareConsumer recorder "ex" "q" [] [] []).state.filterMap Request.prefetchCount? ≠
      (startConsuming "q" 10).filterMap Request.prefetchCount? := by
  decide

/-- C8, amended: for every channel and every call whose queue declaration and
bindings succeed, `MustDeclareConsumer` sets the prefetch limit to the constant 5
(prefetch size 0, not global) in the state the bindings left, and only then, in the
state that request left, opens the delivery stream on the queue as the declaration
named it, with consumer tag empty and auto-ack, exclusive, no-local and no-wait all
false; when both requests succeed the call returns that stream. -/
theorem MustDeclareConsumer_requests {σ δ : Type} (ch : Channel σ δ) (exchange qName : String)
    (routerKeys : List String) (args : Table) (s s1 : σ)
    (hd : (ch.QueueDeclare qName false false false false args s).err = none)
    (hb : boundState ch exchange (ch.QueueDeclare qName false false false false args s).val.Name
      routerKeys (ch.QueueDeclare qName false false false false args s).state = some s1)
    (hq : (ch.Qos 5 0 false s1).err = none)
    (hc : (ch.Consume (ch.QueueDeclare qName false false false false args s).val.Name "" false
      false false false [] (ch.Qos 5 0 false s1).state).err = none) :
    MustDeclareConsumer ch exchange qName routerKeys args s =
      .returned
        (ch.Consume (ch.QueueDeclare qName false false false false args s).val.Name "" false
          false false false [] (ch.Qos 5 0 false s1).state).val
        (ch.Consume (ch.QueueDeclare qName false false false false args s).val.Name "" false
          false false false [] (ch.Qos 5 0 false s1).state).state := by
  simp only [MustDeclareConsumer, hd, failOnError_none,
    bindKeys_of_boundState ch exchange _ routerKeys _ s1 hb, hq, hc]

/-- Witness of C8 amended: on the recording broker, a queue declared with the empty
name is consumed under the name the broker gave it, after the QoS request. -/
theorem MustDeclareConsumer_requests_witness :
    MustDeclareConsumer recorder "ex" "" ["a"] [] [] =
      .returned "amq.gen-1"
        [Request.queueDeclare "" false false false false [],
         Request.queueBind "amq.gen-1" "a" "ex" false [],
         Request.qos 5 0 false,
         Request.consume "amq.gen-1" "" false false false false []] :=
  MustDeclareConsumer_requests recorder "ex" "" ["a"] [] []
    [Request.queueDeclare "" false false false false [],
     Request.queueBind "amq.gen-1" "a" "ex" false []] rfl rfl rfl rfl

/-! ## Lemmas: the order of keys -/

theorem char_eq_of_toNat_eq {a b : Char} (h : a.toNat = b.toNat) : a = b := by
  apply Char.eq_of_val_eq
  apply UInt32.eq_of_val_eq
  apply Fin.eq_of_val_eq
  exact h

theorem lexLt_irrefl (a : List Char) : lexLt a a = false := by
  induction a with
  | nil => rfl
  | cons c cs ih => simp [lexLt, ih]

theorem lexLt_trans {a b c : List Char} (h1 : lexLt a b = true) (h2 : lexLt b c = true) :
    lexLt a c = true := by
  induction a generalizing b c with
  | nil =>
    cases b with
    | nil => simp [lexLt] at h1
    | cons y ys =>
      cases c with
      | nil => simp [lexLt] at h2
      | cons z zs => rfl
  | cons x xs ih =>
    cases b with
    | nil => simp [lexLt] at h1
    | cons y ys =>
      cases c with
      | nil => simp [lexLt] at h2
      | cons z zs =>
        simp only [lexLt, Bool.or_eq_true, Bool.and_eq_true, decide_eq_true_eq, beq_iff_eq] at h1 h2 ⊢
        rcases h1 with h1 | ⟨h1, h1'⟩
        · rcases h2 with h2 | ⟨h2, _⟩
          · exact Or.inl (by omega)
          · exact Or.inl (by omega)
        · rcases h2 with h2 | ⟨h2, h2'⟩
          · exact Or.inl (by omega)
          · exact Or.inr ⟨by omega, ih h1' h2'⟩

theorem lexLt_total {a b : List Char} (h1 : lexLt a b = false) (h2 : lexLt b a = false) :
    a = b := by
  induction a generalizing b with
  | nil =>
    cases b with
    | nil => rfl
    | cons y ys => simp [lexLt] at h1
  | cons x xs ih =>
    cases b with
    | nil => simp [lexLt] at h2
    | cons y ys =>
      simp only [lexLt, Bool.or_eq_false_iff, Bool.and_eq_false_iff, decide_eq_false_iff_not,
        beq_eq_false_iff_ne, ne_eq] at h1 h2
      have hxy : x.toNat = y.toNat := by omega
      have hx : x = y := char_eq_of_toNat_eq hxy
      subst hx
      have t1 : lexLt xs ys = false := by
        rcases h1.2 with h | h
        · exact absurd rfl h
        · exact h
      have t2 : lexLt ys xs = false := by
        rcases h2.2 with h | h
        · exact absurd rfl h
        · exact h
      rw [ih t1 t2]

theorem keyLt_irrefl (a : String) : keyLt a a = false := lexLt_irrefl _

theorem keyLt_trans {a b c : String} (h1 : keyLt a b = true) (h2 : keyLt b c = true) :
    keyLt a c = true := lexLt_trans h1 h2

theorem keyLt_total {a b : String} (h1 : keyLt a b = false) (h2 : a ≠ b) : keyLt b a = true := by
  by_contra h
  simp only [Bool.not_eq_true] at h
  exact h2 (String.ext (lexLt_total h1 h))
theorem mem_insertField {k : String} {v : JSON} {l : List (String × JSON)} {x : String × JSON}
    (h : x ∈ insertField k v l) : x = (k, v) ∨ x ∈ l := by
  induction l with
  | nil => simp [insertField] at h; exact Or.inl h
  | cons y ys ih =>
    obtain ⟨k', v'⟩ := y
    simp only [insertField] at h
    split at h
    · simp only [List.mem_cons] at h ⊢
      tauto
    · split at h
      · simp only [List.mem_cons] at h ⊢
        tauto
      · simp only [List.mem_cons] at h ⊢
        rcases h with h | h
        · exact Or.inr (Or.inl h)
        · rcases ih h with h | h
          · exact Or.inl h
          · exact Or.inr (Or.inr h)

theorem self_mem_insertField (k : String) (v : JSON) (l : List (String × JSON)) :
    (k, v) ∈ insertField k v l := by
  induction l with
  | nil => simp [insertField]
  | cons y ys ih =>
    obtain ⟨k', v'⟩ := y
    simp only [insertField]
    split
    · simp
    · split
      · simp
      · exact List.mem_cons_of_mem _ ih

theorem mem_insertField_of_ne {k : String} {v : JSON} {l : List (String × JSON)}
    {x : String × JSON} (h : x ∈ l) (hne : x.1 ≠ k) : x ∈ insertField k v l := by
  induction l with
  | nil => cases h
  | cons y ys ih =>
    obtain ⟨k', v'⟩ := y
    simp only [insertField]
    split
    · exact List.mem_cons_of_mem _ h
    · split
      · rename_i hk
        rcases List.mem_cons.mp h with h | h
        · subst h; exact absurd hk.symm hne
        · exact List.mem_cons_of_mem _ h
      · rcases List.mem_cons.mp h with h | h
        · subst h; exact List.mem_cons_self _ _
        · exact List.mem_cons_of_mem _ (ih h)

theorem insertField_ascending {k : String} {v : JSON} {l : List (String × JSON)}
    (h : Ascending l) : Ascending (insertField k v l) := by
  induction l with
  | nil => simp [insertField, Ascending]
  | cons y ys ih =>
    obtain ⟨k', v'⟩ := y
    unfold Ascending at h ih ⊢
    rw [List.pairwise_cons] at h
    simp only [insertField]
    split
    · rename_i hlt
      rw [List.pairwise_cons]
      refine ⟨?_, List.pairwise_cons.mpr h⟩
      intro x hx
      rcases List.mem_cons.mp hx with hx | hx
      · subst hx; exact hlt
      · exact keyLt_trans hlt (h.1 x hx)
    · split
      · rename_i hk
        subst hk
        rw [List.pairwise_cons]
        exact ⟨h.1, h.2⟩
      · rename_i hlt hk
        rw [List.pairwise_cons]
        refine ⟨?_, ih h.2⟩
        intro x hx
        rcases mem_insertField hx with hx | hx
        · subst hx
          exact keyLt_total (by simpa using hlt) hk
        · exact h.1 x hx

theorem marshalFields_ascending {kvs : List (String × Value)} {fs : List (String × JSON)}
    (h : marshalFields kvs = some fs) : Ascending fs := by
  induction kvs generalizing fs with
  | nil => simp [marshalFields] at h; subst h; simp [Ascending]
  | cons kv rest ih =>
    obtain ⟨k, v⟩ := kv
    simp only [marshalFields] at h
    split at h
    · rename_i j js hj hjs
      injection h with h
      subst h
      exact insertField_ascending (ih hjs)
    · cases h

theorem marshalFields_mem {kvs : List (String × Value)} {fs : List (String × JSON)}
    (h : marshalFields kvs = some fs) {k : String} {j : JSON} (hm : (k, j) ∈ fs) :
    ∃ v, (k, v) ∈ kvs ∧ marshalValue v = some j := by
  induction kvs generalizing fs with
  | nil => simp [marshalFields] at h; subst h; cases hm
  | cons kv rest ih =>
    obtain ⟨k', v'⟩ := kv
    simp only [marshalFields] at h
    split at h
    · rename_i j' js hj hjs
      injection h with h
      subst h
      rcases mem_insertField hm with hm | hm
      · injection hm with h1 h2
        subst h1; subst h2
        exact ⟨v', List.mem_cons_self _ _, hj⟩
      · obtain ⟨v, hv, hvj⟩ := ih hjs hm
        exact ⟨v, List.mem_cons_of_mem _ hv, hvj⟩
    · cases h

theorem marshalFields_lookup {kvs : List (String × Value)} {fs : List (String × JSON)}
    (h : marshalFields kvs = some fs) {k : String} {v : Value}
    (hl : List.lookup k kvs = some v) :
    ∃ j, marshalValue v = some j ∧ (k, j) ∈ fs := by
  induction kvs generalizing fs with
  | nil => simp at hl
  | cons kv rest ih =>
    obtain ⟨k', v'⟩ := kv
    simp only [marshalFields] at h
    split at h
    · rename_i j' js hj hjs
      injection h with h
      subst h
      rw [List.lookup_cons] at hl
      split at hl
      · rename_i hk
        have hk' : k = k' := by simpa using hk
        subst hk'
        injection hl with hl
        subst hl
        exact ⟨j', hj, self_mem_insertField _ _ _⟩
      · rename_i hk
        have hk' : k ≠ k' := by simpa using hk
        obtain ⟨j, hvj, hmem⟩ := ih hjs hl
        exact ⟨j, hvj, mem_insertField_of_ne hmem hk'⟩
    · cases h

theorem jsonMarshal_eq_some {hs : Table} {js : JSON} (h : jsonMarshal hs = some js) :
    ∃ fs, js = .obj fs ∧ marshalFields hs = some fs := by
  simp only [jsonMarshal, marshalValue, Option.map_eq_some'] at h
  obtain ⟨fs, h1, h2⟩ := h
  exact ⟨fs, h2.symm, h1⟩
/-! ## Lemmas: the decoder -/

theorem toNat_le_toLower (c : Char) : c.toNat ≤ c.toLower.toNat := by
  unfold Char.toLower
  simp only [ge_iff_le]
  split
  · rename_i h
    generalize c.toNat = n at h ⊢
    obtain ⟨h1, h2⟩ := h
    interval_cases n <;> decide
  · exact Nat.le_refl _

theorem toNat_le_of_foldChar {c t : Char} (h : foldChar c = t) (hk : t ≠ 'k') (hs : t ≠ 's') :
    c.toNat ≤ t.toNat := by
  unfold foldChar at h
  split at h
  · exact absurd h.symm hk
  · split at h
    · exact absurd h.symm hs
    · rw [← h]; exact toNat_le_toLower c

theorem lexLt_false_of_fold (k t : List Char) (h : k.map foldChar = t)
    (ht : ∀ c ∈ t, c ≠ 'k' ∧ c ≠ 's') : lexLt t k = false := by
  induction k generalizing t with
  | nil => simp at h; subst h; rfl
  | cons c cs ih =>
    cases t with
    | nil => simp at h
    | cons x xs =>
      simp only [List.map_cons, List.cons.injEq] at h
      have hx := ht x (List.mem_cons_self _ _)
      have hle := toNat_le_of_foldChar h.1 hx.1 hx.2
      have ih' := ih xs h.2 (fun c hc => ht c (List.mem_cons_of_mem _ hc))
      simp only [lexLt, ih', Bool.and_false, Bool.or_false, decide_eq_false_iff_not]
      omega

/-- The key `x-death` itself is the greatest key that is decoded into `XDeath`. -/
theorem not_keyLt_of_isXDeathKey {k : String} (h : isXDeathKey k = true) :
    keyLt "x-death" k = false := by
  simp only [isXDeathKey, Bool.or_eq_true, beq_iff_eq] at h
  rcases h with h | h
  · subst h; exact keyLt_irrefl _
  · have h' : k.data.map foldChar = "x-death".data := by
      have := congrArg String.data h
      simpa [foldName] using this.symm
    exact lexLt_false_of_fold k.data _ h' (by decide)

theorem decodeHeaderFields_skip {fs : List (String × JSON)} (h : Headers)
    (hk : ∀ x ∈ fs, isXDeathKey x.1 = false) : decodeHeaderFields fs h = some h := by
  induction fs with
  | nil => rfl
  | cons x xs ih =>
    obtain ⟨k, j⟩ := x
    have h1 : isXDeathKey k = false := hk (k, j) (List.mem_cons_self _ _)
    simp only [decodeHeaderFields, h1, Bool.false_eq_true, if_false]
    exact ih (fun y hy => hk y (List.mem_cons_of_mem _ hy))

theorem decodeHeaderFields_append (a b : List (String × JSON)) (h : Headers) :
    decodeHeaderFields (a ++ b) h = (decodeHeaderFields a h).bind (decodeHeaderFields b) := by
  induction a generalizing h with
  | nil => rfl
  | cons x xs ih =>
    obtain ⟨k, j⟩ := x
    simp only [List.cons_append, decodeHeaderFields]
    split
    · split
      · exact ih _
      · rfl
    · exact ih _

theorem decodeHeaderFields_none {fs : List (String × JSON)} {k : String} {j : JSON}
    (hm : (k, j) ∈ fs) (hk : isXDeathKey k = true)
    (hbad : ∀ old, decodeSlice decodeDeath AmqpDeath.zero j old = none) (h : Headers) :
    decodeHeaderFields fs h = none := by
  induction fs generalizing h with
  | nil => cases hm
  | cons x xs ih =>
    obtain ⟨k', j'⟩ := x
    rcases List.mem_cons.mp hm with hm | hm
    · injection hm with h1 h2
      subst h1; subst h2
      simp only [decodeHeaderFields, hk, if_true, hbad]
    · simp only [decodeHeaderFields]
      split
      · split
        · exact ih hm _
        · rfl
      · exact ih hm _

/-! ## Theorems: `ParseDeathHeader` -/

/-- C2, the claim as stated fails: a mapping whose only key is `X-Death` has no
`x-death` key, and `ParseDeathHeader` returns the entry under it, because
`json.Unmarshal` matches keys to field tags case-insensitively. -/
theorem ParseDeathHeader_matches_other_case :
    List.lookup "x-death" [("X-Death", Value.array [.table [("count", .int 3)]])] = none ∧
    ParseDeathHeader [("X-Death", Value.array [.table [("count", .int 3)]])] =
      some { AmqpDeath.zero with Count := 3 } :=
  ⟨rfl, by decide⟩

/-- C2, amended: for every mapping none of whose keys matches `x-death`
case-insensitively (the empty mapping included), `ParseDeathHeader` returns nil,
whatever the keys and values are. -/
theorem ParseDeathHeader_no_matching_key (hs : Table)
    (h : ∀ kv ∈ hs, isXDeathKey kv.1 = false) : ParseDeathHeader hs = none := by
  unfold ParseDeathHeader
  cases hm : jsonMarshal hs with
  | none => rfl
  | some js =>
    obtain ⟨fs, hjs, hfs⟩ := jsonMarshal_eq_some hm
    subst hjs
    have hskip : ∀ x ∈ fs, isXDeathKey x.1 = false := by
      intro x hx
      obtain ⟨v, hv, _⟩ := marshalFields_mem hfs (k := x.1) (j := x.2) hx
      exact h _ hv
    simp only [jsonUnmarshal, decodeHeaderFields_skip _ hskip]
    rfl

/-- Witness of C2 amended: a mapping with two keys, neither matching `x-death`. -/
theorem ParseDeathHeader_no_matching_key_witness :
    (∀ kv ∈ ([("x-first-death-queue", Value.str "q"), ("n", .int 1)] : Table),
      isXDeathKey kv.1 = false) ∧
    ParseDeathHeader [("x-first-death-queue", Value.str "q"), ("n", .int 1)] = none :=
  ⟨by decide, ParseDeathHeader_no_matching_key _ (by decide)⟩

/-- C9: for every mapping whose `x-death` value is an empty sequence,
`ParseDeathHeader` returns nil. Every other key that is decoded into `XDeath`
precedes `x-death` in the encoded document, so the empty sequence is decoded
last. -/
theorem ParseDeathHeader_empty_sequence (hs : Table)
    (h : List.lookup "x-death" hs = some (.array [])) : ParseDeathHeader hs = none := by
  unfold ParseDeathHeader
  cases hm : jsonMarshal hs with
  | none => rfl
  | some js =>
    obtain ⟨fs, hjs, hfs⟩ := jsonMarshal_eq_some hm
    subst hjs
    obtain ⟨j, hj, hmem⟩ := marshalFields_lookup hfs h
    simp only [marshalValue, marshalList, Option.map_some', Option.some.injEq] at hj
    subst hj
    obtain ⟨pre, post, hsplit⟩ := List.append_of_mem hmem
    have hasc := marshalFields_ascending hfs
    rw [hsplit] at hasc
    unfold Ascending at hasc
    rw [List.pairwise_append] at hasc
    have hpost : ∀ x ∈ post, isXDeathKey x.1 = false := by
      intro x hx
      have hlt := (List.pairwise_cons.mp hasc.2.1).1 x hx
      cases hx' : isXDeathKey x.1 with
      | false => rfl
      | true =>
        have := not_keyLt_of_isXDeathKey hx'
        simp only at hlt
        rw [this] at hlt
        cases hlt
    simp only [jsonUnmarshal, hsplit, decodeHeaderFields_append]
    cases decodeHeaderFields pre ⟨Slice.ofList []⟩ with
    | none => rfl
    | some h1 =>
      have hx : isXDeathKey "x-death" = true := by decide
      simp only [Option.bind, decodeHeaderFields, hx, if_true, decodeSlice,
        decodeHeaderFields_skip _ hpost]
      rfl

/-- Witness of C9: the empty sequence under `x-death`, next to a populated
sequence under `X-DEATH`. -/
theorem ParseDeathHeader_empty_sequence_witness :
    List.lookup "x-death"
      [("X-DEATH", Value.array [.table [("count", .int 1)]]), ("x-death", .array [])]
      = some (.array []) ∧
    ParseDeathHeader
      [("X-DEATH", Value.array [.table [("count", .int 1)]]), ("x-death", .array [])] = none :=
  ⟨rfl, ParseDeathHeader_empty_sequence _ rfl⟩

/-! ## Lemmas: decoding errors -/

theorem mem_of_lookup {β : Type} {k : String} {v : β} {l : List (String × β)}
    (h : List.lookup k l = some v) : (k, v) ∈ l := by
  induction l with
  | nil => simp at h
  | cons x xs ih =>
    obtain ⟨k', v'⟩ := x
    rw [List.lookup_cons] at h
    split at h
    · rename_i hk
      have hk' : k = k' := by simpa using hk
      injection h with h
      subst hk'; subst h
      exact List.mem_cons_self _ _
    · exact List.mem_cons_of_mem _ (ih h)

theorem marshalFields_none_of_mem {kvs : List (String × Value)} {k : String} {v : Value}
    (hm : (k, v) ∈ kvs) (hv : marshalValue v = none) : marshalFields kvs = none := by
  induction kvs with
  | nil => cases hm
  | cons x xs ih =>
    obtain ⟨k', v'⟩ := x
    rcases List.mem_cons.mp hm with hm | hm
    · injection hm with h1 h2
      subst h1; subst h2
      simp only [marshalFields, hv]
    · simp only [marshalFields, ih hm]
      split
      · rename_i heq; cases heq
      · rfl

theorem marshalList_mem {vs : List Value} {js : List JSON} (h : marshalList vs = some js)
    {v : Value} (hv : v ∈ vs) : ∃ j ∈ js, marshalValue v = some j := by
  induction vs generalizing js with
  | nil => cases hv
  | cons x xs ih =>
    simp only [marshalList] at h
    split at h
    · rename_i j js' hj hjs
      injection h with h
      subst h
      rcases List.mem_cons.mp hv with hv | hv
      · subst hv; exact ⟨j, List.mem_cons_self _ _, hj⟩
      · obtain ⟨j', hj', hvj⟩ := ih hjs hv
        exact ⟨j', List.mem_cons_of_mem _ hj', hvj⟩
    · cases h

theorem decodeElems_none_of_mem {α : Type} (dec : JSON → α → Option α) (zero : α)
    {js : List JSON} {j : JSON} (hm : j ∈ js) (hbad : ∀ old, dec j old = none)
    (backing : List α) : decodeElems dec zero js backing = none := by
  induction js generalizing backing with
  | nil => cases hm
  | cons x xs ih =>
    rcases List.mem_cons.mp hm with hm | hm
    · subst hm
      simp only [decodeElems, hbad]
    · simp only [decodeElems, ih hm]
      split
      · rename_i heq; cases heq
      · rfl

theorem decodeSlice_none_of_mem {α : Type} (dec : JSON → α → Option α) (zero : α)
    {js : List JSON} {j : JSON} (hm : j ∈ js) (hbad : ∀ old, dec j old = none)
    (old : Slice α) : decodeSlice dec zero (.arr js) old = none := by
  cases js with
  | nil => cases hm
  | cons x xs =>
    simp only [decodeSlice, decodeElems_none_of_mem dec zero hm hbad, Option.map_none']

theorem decodeElems_none_indep {α : Type} (dec : JSON → α → Option α) (zero : α)
    (hdec : ∀ j a b, dec j a = none → dec j b = none) (js : List JSON) (b1 b2 : List α)
    (h : decodeElems dec zero js b1 = none) : decodeElems dec zero js b2 = none := by
  induction js generalizing b1 b2 with
  | nil => simp [decodeElems] at h
  | cons x xs ih =>
    simp only [decodeElems] at h ⊢
    cases h1 : dec x (b1.headD zero) with
    | none => simp only [hdec _ _ (b2.headD zero) h1]
    | some y =>
      cases h2 : decodeElems dec zero xs b1.tail with
      | none =>
        simp only [ih _ b2.tail h2]
        split
        · rename_i heq; cases heq
        · rfl
      | some ys => simp only [h1, h2] at h; cases h

theorem decodeSlice_none_indep {α : Type} (dec : JSON → α → Option α) (zero : α)
    (hdec : ∀ j a b, dec j a = none → dec j b = none) (j : JSON) (s1 s2 : Slice α)
    (h : decodeSlice dec zero j s1 = none) : decodeSlice dec zero j s2 = none := by
  cases j with
  | arr js =>
    cases js with
    | nil => simp [decodeSlice] at h
    | cons x xs =>
      simp only [decodeSlice, Option.map_eq_none'] at h ⊢
      exact decodeElems_none_indep dec zero hdec _ _ _ h
  | null => simp [decodeSlice] at h
  | bool b => rfl
  | num l => rfl
  | str s => rfl
  | obj kvs => rfl

theorem decodeString_none_indep (j : JSON) (a b : String) (h : decodeString j a = none) :
    decodeString j b = none := by
  cases j <;> simp_all [decodeString]

theorem decodeInt_none_indep (j : JSON) (a b : Int) (h : decodeInt j a = none) :
    decodeInt j b = none := by
  cases j with
  | num l => cases l <;> simp_all [decodeInt]
  | _ => simp_all [decodeInt]

theorem decodeTime_none_indep (j : JSON) (a b : Time) (h : decodeTime j a = none) :
    decodeTime j b = none := by
  cases j <;> simp_all [decodeTime]

theorem decodeDeathField_none_indep (k : String) (j : JSON) (d d' : AmqpDeath)
    (h : decodeDeathField k j d = none) : decodeDeathField k j d' = none := by
  unfold decodeDeathField at h ⊢
  cases hf : findField k with
  | none => simp [hf] at h
  | some f =>
    cases f <;> simp only [hf, Option.map_eq_none'] at h ⊢
    · exact decodeInt_none_indep _ _ _ h
    · exact decodeString_none_indep _ _ _ h
    · exact decodeString_none_indep _ _ _ h
    · exact decodeString_none_indep _ _ _ h
    · exact decodeString_none_indep _ _ _ h
    · exact decodeSlice_none_indep _ _ decodeString_none_indep _ _ _ h
    · exact decodeTime_none_indep _ _ _ h

theorem decodeDeathFields_none_indep (fs : List (String × JSON)) (d d' : AmqpDeath)
    (h : decodeDeathFields fs d = none) : decodeDeathFields fs d' = none := by
  induction fs generalizing d d' with
  | nil => simp [decodeDeathFields] at h
  | cons x xs ih =>
    obtain ⟨k, j⟩ := x
    simp only [decodeDeathFields] at h ⊢
    cases h1 : decodeDeathField k j d with
    | none => simp only [decodeDeathField_none_indep k j d d' h1]
    | some d1 =>
      simp only [h1] at h
      cases h2 : decodeDeathField k j d' with
      | none => rfl
      | some d2 => exact ih d1 d2 h

theorem decodeDeath_none_indep (j : JSON) (d d' : AmqpDeath) (h : decodeDeath j d = none) :
    decodeDeath j d' = none := by
  cases j with
  | obj kvs => exact decodeDeathFields_none_indep kvs d d' h
  | null => simp [decodeDeath] at h
  | bool b => rfl
  | num l => rfl
  | str s => rfl
  | arr xs => rfl

theorem decodeDeathFields_none_of_mem {fs : List (String × JSON)} {k : String} {j : JSON}
    (hm : (k, j) ∈ fs) (hbad : ∀ d, decodeDeathField k j d = none) (d : AmqpDeath) :
    decodeDeathFields fs d = none := by
  induction fs generalizing d with
  | nil => cases hm
  | cons x xs ih =>
    obtain ⟨k', j'⟩ := x
    rcases List.mem_cons.mp hm with hm | hm
    · injection hm with h1 h2
      subst h1; subst h2
      simp only [decodeDeathFields, hbad]
    · simp only [decodeDeathFields]
      split
      · exact ih hm _
      · rfl

/-- An entry of the `x-death` sequence that cannot be encoded, or whose encoding
cannot be decoded into an `AmqpDeath`, makes the whole call return nil. -/
theorem ParseDeathHeader_none_of_bad_entry (hs : Table) (vs : List Value) (v : Value)
    (h : List.lookup "x-death" hs = some (.array vs)) (hv : v ∈ vs)
    (hbad : ∀ j, marshalValue v = some j → decodeDeath j AmqpDeath.zero = none) :
    ParseDeathHeader hs = none := by
  unfold ParseDeathHeader
  cases hm : jsonMarshal hs with
  | none => rfl
  | some js =>
    obtain ⟨fs, hjs, hfs⟩ := jsonMarshal_eq_some hm
    subst hjs
    obtain ⟨j, hj, hmem⟩ := marshalFields_lookup hfs h
    simp only [marshalValue, Option.map_eq_some'] at hj
    obtain ⟨js, hjs, hjj⟩ := hj
    subst hjj
    obtain ⟨jv, hjv, hvj⟩ := marshalList_mem hjs hv
    have hb : ∀ old, decodeDeath jv old = none :=
      fun old => decodeDeath_none_indep jv _ old (hbad jv hvj)
    have hx : isXDeathKey "x-death" = true := by decide
    simp only [jsonUnmarshal, decodeHeaderFields_none hmem hx
      (decodeSlice_none_of_mem decodeDeath AmqpDeath.zero hjv hb)]

theorem bad_entry_of_bad_member (e : Table) (k : String) (v : Value)
    (h : List.lookup k e = some v)
    (hbad : ∀ j, marshalValue v = some j → ∀ d, decodeDeathField k j d = none) :
    ∀ j, marshalValue (.table e) = some j → decodeDeath j AmqpDeath.zero = none := by
  intro j hj
  simp only [marshalValue, Option.map_eq_some'] at hj
  obtain ⟨fs, hfs, hjj⟩ := hj
  subst hjj
  obtain ⟨jv, hjv, hmem⟩ := marshalFields_lookup hfs h
  exact decodeDeathFields_none_of_mem hmem (hbad jv hjv) _

/-- C3: malformed input gives nil, never an error: a failure of `json.Marshal` or
of `json.Unmarshal` is a nil result; so is a mapping that holds a value that
cannot be encoded, a first entry whose `count` is a string, and a first entry
whose `routing-keys` is a scalar. -/
theorem ParseDeathHeader_malformed (hs : Table) :
    (jsonMarshal hs = none → ParseDeathHeader hs = none) ∧
    (∀ js, jsonMarshal hs = some js → jsonUnmarshal js = none → ParseDeathHeader hs = none) ∧
    (∀ k v, List.lookup k hs = some v → marshalValue v = none → ParseDeathHeader hs = none) ∧
    (∀ first rest s, List.lookup "x-death" hs = some (.array (.table first :: rest)) →
      List.lookup "count" first = some (.str s) → ParseDeathHeader hs = none) ∧
    (∀ first rest v, List.lookup "x-death" hs = some (.array (.table first :: rest)) →
      List.lookup "routing-keys" first = some v → v.isScalar = true →
      ParseDeathHeader hs = none) := by
  refine ⟨?_, ?_, ?_, ?_, ?_⟩
  · intro h
    simp only [ParseDeathHeader, h]
  · intro js h1 h2
    simp only [ParseDeathHeader, h1, h2]
  · intro k v hl hv
    have : jsonMarshal hs = none := by
      simp only [jsonMarshal, marshalValue, marshalFields_none_of_mem (mem_of_lookup hl) hv,
        Option.map_none']
    simp only [ParseDeathHeader, this]
  · intro first rest s hx hc
    refine ParseDeathHeader_none_of_bad_entry hs _ _ hx (List.mem_cons_self _ _)
      (bad_entry_of_bad_member first "count" _ hc ?_)
    intro j hj d
    simp only [marshalValue, Option.some.injEq] at hj
    subst hj
    have hf : findField "count" = some .count := by decide
    simp only [decodeDeathField, hf, decodeInt, Option.map_none']
  · intro first rest v hx hr hv
    refine ParseDeathHeader_none_of_bad_entry hs _ _ hx (List.mem_cons_self _ _)
      (bad_entry_of_bad_member first "routing-keys" _ hr ?_)
    intro j hj d
    have hf : findField "routing-keys" = some .routingKeys := by decide
    simp only [decodeDeathField, hf, Option.map_eq_none']
    cases v with
    | bool b => simp only [marshalValue, Option.some.injEq] at hj; subst hj; rfl
    | int n => simp only [marshalValue, Option.some.injEq] at hj; subst hj; rfl
    | float f =>
      cases f with
      | finite l => simp only [marshalValue, Option.some.injEq] at hj; subst hj; rfl
      | nan => simp [marshalValue] at hj
      | posInf => simp [marshalValue] at hj
      | negInf => simp [marshalValue] at hj
    | str s => simp only [marshalValue, Option.some.injEq] at hj; subst hj; rfl
    | bytes bs => simp only [marshalValue, Option.some.injEq] at hj; subst hj; rfl
    | time t =>
      simp only [marshalValue, Option.map_eq_some'] at hj
      obtain ⟨s, _, hs⟩ := hj
      subst hs; rfl
    | null => simp [Value.isScalar] at hv
    | decimal a b => simp [Value.isScalar] at hv
    | array xs => simp [Value.isScalar] at hv
    | table kvs => simp [Value.isScalar] at hv

/-- Witness of C3: a mapping whose first entry has the string `many` as `count`,
and a mapping that holds a `NaN`. -/
theorem ParseDeathHeader_malformed_witness :
    ParseDeathHeader [("x-death", Value.array [.table [("count", .str "many")]])] = none ∧
    ParseDeathHeader [("x-death", Value.array [.table [("count", .int 1)]]),
      ("ratio", .float .nan)] = none :=
  ⟨(ParseDeathHeader_malformed _).2.2.2.1 _ [] "many" rfl rfl,
   (ParseDeathHeader_malformed _).2.2.1 "ratio" _ rfl rfl⟩

/-- C10: the whole `x-death` sequence is decoded before the first entry is taken:
for every mapping whose sequence has, after its first entry, an entry that fails
to encode or to decode, `ParseDeathHeader` returns nil rather than the first
entry. -/
theorem ParseDeathHeader_bad_later_entry (hs : Table) (first : Value) (rest : List Value)
    (v : Value) (h : List.lookup "x-death" hs = some (.array (first :: rest))) (hv : v ∈ rest)
    (hbad : ∀ j, marshalValue v = some j → decodeDeath j AmqpDeath.zero = none) :
    ParseDeathHeader hs = none :=
  ParseDeathHeader_none_of_bad_entry hs _ v h (List.mem_cons_of_mem _ hv) hbad

/-- Witness of C10: a good first entry, which alone is returned, followed by an
entry whose `count` is a string. -/
theorem ParseDeathHeader_bad_later_entry_witness :
    ParseDeathHeader [("x-death", Value.array [.table [("count", .int 1)]])] =
      some { AmqpDeath.zero with Count := 1 } ∧
    ParseDeathHeader [("x-death", Value.array
      [.table [("count", .int 1)], .table [("count", .str "x")]])] = none :=
  ⟨by decide, ParseDeathHeader_bad_later_entry _ (.table [("count", .int 1)])
    [.table [("count", .str "x")]] (.table [("count", .str "x")]) rfl
    (List.mem_cons_self _ _) (by
      intro j hj
      have : j = .obj [("count", .str "x")] := by
        have h2 : marshalValue (.table [("count", .str "x")]) =
          some (.obj [("count", .str "x")]) := rfl
        rw [h2] at hj
        injection hj with hj
        exact hj.symm
      subst this
      rfl)⟩

/-! ## Lemmas: what the members of an entry do to a field -/

theorem decodeDeathFields_append (a b : List (String × JSON)) (d : AmqpDeath) :
    decodeDeathFields (a ++ b) d = (decodeDeathFields a d).bind (decodeDeathFields b) := by
  induction a generalizing d with
  | nil => rfl
  | cons x xs ih =>
    obtain ⟨k, j⟩ := x
    simp only [List.cons_append, decodeDeathFields]
    split
    · exact ih _
    · rfl

/-- Members that are decoded into other fields leave a field as it is. -/
theorem decodeDeathFields_preserves {α : Type} (get : AmqpDeath → α) (f : DeathField)
    (hstep : ∀ k j d d', decodeDeathField k j d = some d' → findField k ≠ some f →
      get d' = get d)
    (l : List (String × JSON)) (d0 d : AmqpDeath) (h : decodeDeathFields l d0 = some d)
    (hl : ∀ x ∈ l, findField x.1 ≠ some f) : get d = get d0 := by
  induction l generalizing d0 with
  | nil => simp only [decodeDeathFields, Option.some.injEq] at h; subst h; rfl
  | cons x xs ih =>
    obtain ⟨k, j⟩ := x
    simp only [decodeDeathFields] at h
    split at h
    · rename_i d1 h1
      rw [ih d1 h (fun y hy => hl y (List.mem_cons_of_mem _ hy))]
      exact hstep k j d0 d1 h1 (hl (k, j) (List.mem_cons_self _ _))
    · cases h

/-- The field has the value that the last member decoded into it gave it. -/
theorem decodeDeathFields_split {α : Type} (get : AmqpDeath → α) (f : DeathField)
    (hstep : ∀ k j d d', decodeDeathField k j d = some d' → findField k ≠ some f →
      get d' = get d)
    (pre post : List (String × JSON)) (k : String) (j : JSON) (d0 d : AmqpDeath)
    (h : decodeDeathFields (pre ++ (k, j) :: post) d0 = some d)
    (hpost : ∀ x ∈ post, findField x.1 ≠ some f) :
    ∃ d1 d2, decodeDeathFields pre d0 = some d1 ∧ decodeDeathField k j d1 = some d2 ∧
      get d = get d2 := by
  rw [decodeDeathFields_append] at h
  cases h1 : decodeDeathFields pre d0 with
  | none => simp [h1] at h
  | some d1 =>
    simp only [h1, Option.bind, decodeDeathFields] at h
    cases h2 : decodeDeathField k j d1 with
    | none => simp [h2] at h
    | some d2 =>
      simp only [h2] at h
      exact ⟨d1, d2, rfl, h2, decodeDeathFields_preserves get f hstep post d2 d h hpost⟩

theorem findField_tag (f : DeathField) : findField f.tag = some f := by
  cases f <;> decide

/-- A key decoded into a field is the tag or a case variant of it. -/
theorem foldName_of_findField {k : String} {f : DeathField} (h : findField k = some f) :
    foldName f.tag = foldName k := by
  unfold findField at h
  split at h
  · rename_i g hg
    injection h with h
    subst h
    have := List.find?_some hg
    simp only [beq_iff_eq] at this
    rw [this]
  · have := List.find?_some h
    simpa using this

/-- The tag `count` is the greatest key that is decoded into `Count`. -/
theorem not_keyLt_of_count {k : String} (h : findField k = some .count) :
    keyLt "count" k = false := by
  have hf := foldName_of_findField h
  have h' : k.data.map foldChar = "count".data := by
    have := congrArg String.data hf
    simpa [foldName] using this.symm
  exact lexLt_false_of_fold k.data _ h' (by decide)

theorem count_step (k : String) (j : JSON) (d d' : AmqpDeath)
    (h : decodeDeathField k j d = some d') (hf : findField k ≠ some .count) :
    d'.Count = d.Count := by
  unfold decodeDeathField at h
  cases hk : findField k with
  | none => simp only [hk, Option.some.injEq] at h; subst h; rfl
  | some f =>
    cases f <;> simp only [hk, Option.map_eq_some'] at h
    · exact absurd hk hf
    all_goals
      obtain ⟨x, _, hx⟩ := h
      subst hx
      rfl

/-- In an encoded entry that holds the integer `n` under `count`, decoding gives
`Count` the value `n`, whatever else the entry holds. -/
theorem count_of_decodeDeathFields {fs : List (String × JSON)} (hasc : Ascending fs) {n : Int}
    (hm : ("count", JSON.num (.int n)) ∈ fs) (d0 d : AmqpDeath)
    (h : decodeDeathFields fs d0 = some d) : d.Count = n := by
  obtain ⟨pre, post, hsplit⟩ := List.append_of_mem hm
  subst hsplit
  unfold Ascending at hasc
  rw [List.pairwise_append] at hasc
  have hpost : ∀ x ∈ post, findField x.1 ≠ some .count := by
    intro x hx hxf
    have hlt := (List.pairwise_cons.mp hasc.2.1).1 x hx
    simp only [not_keyLt_of_count hxf] at hlt
    cases hlt
  obtain ⟨d1, d2, _, h2, h3⟩ :=
    decodeDeathFields_split (fun d => d.Count) .count count_step pre post _ _ d0 d h hpost
  have h3' : d.Count = d2.Count := h3
  rw [h3']
  have hf : findField "count" = some .count := by decide
  simp only [decodeDeathField, hf, decodeInt, Option.map_eq_some'] at h2
  obtain ⟨x, hx, hd2⟩ := h2
  subst hd2
  split at hx
  · injection hx with hx
    exact hx.symm
  · cases hx

/-! ## Lemmas: the record that is returned -/

/-- The `XDeath` that `json.Unmarshal` leaves was decoded from the member `x-death`
of the document, the last one that is decoded into it. -/
theorem xdeath_of_jsonUnmarshal {fs : List (String × JSON)} (hasc : Ascending fs) {j : JSON}
    (hm : ("x-death", j) ∈ fs) {h : Headers} (hu : jsonUnmarshal (.obj fs) = some h) :
    ∃ old, decodeSlice decodeDeath AmqpDeath.zero j old = some h.XDeath := by
  obtain ⟨pre, post, hsplit⟩ := List.append_of_mem hm
  subst hsplit
  unfold Ascending at hasc
  rw [List.pairwise_append] at hasc
  have hpost : ∀ x ∈ post, isXDeathKey x.1 = false := by
    intro x hx
    have hlt := (List.pairwise_cons.mp hasc.2.1).1 x hx
    cases hx' : isXDeathKey x.1 with
    | false => rfl
    | true =>
      simp only [not_keyLt_of_isXDeathKey hx'] at hlt
      cases hlt
  simp only [jsonUnmarshal, decodeHeaderFields_append] at hu
  cases h1 : decodeHeaderFields pre ⟨Slice.ofList []⟩ with
  | none => simp [h1] at hu
  | some hd1 =>
    have hx : isXDeathKey "x-death" = true := by decide
    simp only [h1, Option.bind, decodeHeaderFields, hx, if_true] at hu
    cases h2 : decodeSlice decodeDeath AmqpDeath.zero j hd1.XDeath with
    | none => simp [h2] at hu
    | some sl =>
      simp only [h2, decodeHeaderFields_skip _ hpost, Option.some.injEq] at hu
      subst hu
      exact ⟨hd1.XDeath, h2⟩

/-- The first element of a decoded slice was decoded from the first element of the
array. -/
theorem head_of_decodeSlice {α : Type} (dec : JSON → α → Option α) (zero : α) (j0 : JSON)
    (js : List JSON) (old sl : Slice α) (h : decodeSlice dec zero (.arr (j0 :: js)) old = some sl) :
    ∃ o x, dec j0 o = some x ∧ sl.elems.head? = some x := by
  simp only [decodeSlice, Option.map_eq_some'] at h
  obtain ⟨xs, hxs, hsl⟩ := h
  subst hsl
  simp only [decodeElems] at hxs
  split at hxs
  · rename_i x xs' hx _
    injection hxs with hxs
    subst hxs
    exact ⟨_, x, hx, rfl⟩
  · cases hxs

/-- A record that `ParseDeathHeader` returns was decoded from the encoding of the
first entry of the `x-death` sequence. -/
theorem ParseDeathHeader_some_first {hs : Table} {e : Table} {rest : List Value} {r : AmqpDeath}
    (hx : List.lookup "x-death" hs = some (.array (.table e :: rest)))
    (h : ParseDeathHeader hs = some r) :
    ∃ efs o, marshalFields e = some efs ∧ decodeDeathFields efs o = some r := by
  unfold ParseDeathHeader at h
  cases hm : jsonMarshal hs with
  | none => simp [hm] at h
  | some js =>
    simp only [hm] at h
    cases hu : jsonUnmarshal js with
    | none => simp [hu] at h
    | some hd =>
      simp only [hu] at h
      split at h
      · cases h
      · obtain ⟨fs, hjs, hfs⟩ := jsonMarshal_eq_some hm
        subst hjs
        obtain ⟨j, hj, hmem⟩ := marshalFields_lookup hfs hx
        simp only [marshalValue, marshalList, Option.map_eq_some'] at hj
        obtain ⟨js, hjs, hjj⟩ := hj
        subst hjj
        split at hjs
        · rename_i j0 js0 h0 _
          injection hjs with hjs
          subst hjs
          simp only [marshalValue, Option.map_eq_some'] at h0
          obtain ⟨efs, hefs, hj0⟩ := h0
          subst hj0
          obtain ⟨old, hold⟩ := xdeath_of_jsonUnmarshal (marshalFields_ascending hfs) hmem hu
          obtain ⟨o, x, hox, hhead⟩ := head_of_decodeSlice _ _ _ _ _ _ hold
          rw [hhead] at h
          injection h with h
          subst h
          exact ⟨efs, o, hefs, hox⟩
        · cases hjs

/-- C5, the claim as stated fails: an entry whose `count` is 0 is returned, with
`Count` 0. -/
theorem ParseDeathHeader_count_zero :
    ParseDeathHeader [("x-death", Value.array [.table [("count", .int 0), ("queue", .str "q")]])]
      = some { AmqpDeath.zero with Count := 0, Queue := "q" } ∧
    ¬ (1 ≤ ({ AmqpDeath.zero with Count := 0, Queue := "q" } : AmqpDeath).Count) := by
  decide

/-- C5, amended: for every mapping whose `x-death` sequence has a first entry with
an integer `count` of `n`, if `ParseDeathHeader` returns a record then its `Count`
is `n`; so `Count` is at least 1 exactly when the count of the input is. -/
theorem ParseDeathHeader_count (hs : Table) (e : Table) (rest : List Value) (n : Int)
    (r : AmqpDeath)
    (hx : List.lookup "x-death" hs = some (.array (.table e :: rest)))
    (hc : List.lookup "count" e = some (.int n))
    (h : ParseDeathHeader hs = some r) :
    r.Count = n ∧ (1 ≤ r.Count ↔ 1 ≤ n) := by
  obtain ⟨efs, o, hefs, hdec⟩ := ParseDeathHeader_some_first hx h
  obtain ⟨j, hj, hmem⟩ := marshalFields_lookup hefs hc
  simp only [marshalValue, Option.some.injEq] at hj
  subst hj
  have := count_of_decodeDeathFields (marshalFields_ascending hefs) hmem o r hdec
  exact ⟨this, by rw [this]⟩

/-- Witness of C5 amended: a count of 3 under `count`, next to a count of 9 under
`Count` and an entry under `X-DEATH`; the record returned has `Count` 3. -/
theorem ParseDeathHeader_count_witness :
    ParseDeathHeader
      [("X-DEATH", Value.array [.table [("count", .int 7), ("queue", .str "q")]]),
       ("x-death", Value.array [.table [("Count", .int 9), ("count", .int 3)]])] =
      some { AmqpDeath.zero with Count := 3, Queue := "q" } ∧
    (({ AmqpDeath.zero with Count := 3, Queue := "q" } : AmqpDeath).Count = 3 ∧
      (1 ≤ ({ AmqpDeath.zero with Count := 3, Queue := "q" } : AmqpDeath).Count ↔
        1 ≤ (3 : Int))) :=
  ⟨by decide, ParseDeathHeader_count
    [("X-DEATH", Value.array [.table [("count", .int 7), ("queue", .str "q")]]),
     ("x-death", Value.array [.table [("Count", .int 9), ("count", .int 3)]])]
    [("Count", .int 9), ("count", .int 3)] [] 3 _ rfl rfl (by decide)⟩

/-! ## Lemmas: RFC 3339 round trip -/

theorem digitVal_digitChar {d : Nat} (h : d < 10) : digitVal (digitChar d) = some d := by
  interval_cases d <;> rfl

theorem digitChar_ne {d : Nat} (h : d < 10) (c : Char) (hc : digitVal c = none) :
    digitChar d ≠ c := by
  intro heq
  rw [← heq, digitVal_digitChar h] at hc
  cases hc

theorem expectChar_cons (c : Char) (rest : List Char) : expectChar c (c :: rest) = some rest := by
  simp [expectChar]

theorem readDigits_two (n : Nat) (h : n < 100) (rest : List Char) :
    readDigits 2 0 (digits 2 n ++ rest) = some (n, rest) := by
  simp only [digits, List.nil_append, List.cons_append, readDigits,
    digitVal_digitChar (show n / 10 % 10 < 10 by omega),
    digitVal_digitChar (show n % 10 < 10 by omega)]
  congr 2
  omega

theorem readDigits_four (n : Nat) (h : n < 10000) (rest : List Char) :
    readDigits 4 0 (digits 4 n ++ rest) = some (n, rest) := by
  simp only [digits, List.nil_append, List.cons_append, readDigits,
    digitVal_digitChar (show n / 10 / 10 / 10 % 10 < 10 by omega),
    digitVal_digitChar (show n / 10 / 10 % 10 < 10 by omega),
    digitVal_digitChar (show n / 10 % 10 < 10 by omega),
    digitVal_digitChar (show n % 10 < 10 by omega)]
  congr 2
  omega
theorem digitVal_digitChar_mod (x : Nat) : digitVal (digitChar (x % 10)) = some (x % 10) :=
  digitVal_digitChar (Nat.mod_lt _ (by decide))

theorem digits_isDigit (k n : Nat) : ∀ c ∈ digits k n, (digitVal c).isSome = true := by
  induction k generalizing n with
  | zero => simp [digits]
  | succ k ih =>
    intro c hc
    simp only [digits, List.mem_append, List.mem_singleton] at hc
    rcases hc with hc | hc
    · exact ih _ c hc
    · subst hc; simp [digitVal_digitChar_mod]

theorem fracNanos_nil (k : Nat) : fracNanos k [] = 0 := by
  cases k <;> rfl

theorem fracNanos_append_zeros (k : Nat) (l : List Char) (m : Nat) :
    fracNanos k (l ++ List.replicate m '0') = fracNanos k l := by
  induction k generalizing l m with
  | zero => rfl
  | succ k ih =>
    cases l with
    | nil =>
      cases m with
      | zero => rfl
      | succ m =>
        have h0 : digitVal '0' = some 0 := by decide
        have := ih [] m
        simp only [List.nil_append] at this
        simp only [List.nil_append, List.replicate_succ, fracNanos, h0, Option.getD_some,
          Nat.zero_mul, Nat.zero_add, this, fracNanos_nil]
    | cons c cs =>
      show (digitVal c).getD 0 * 10 ^ k + fracNanos k (cs ++ List.replicate m '0') = _
      rw [ih cs m]
      rfl

theorem dropTrailingZeros_spec (l : List Char) :
    ∃ m, l = dropTrailingZeros l ++ List.replicate m '0' := by
  refine ⟨(l.reverse.takeWhile (fun c => c == '0')).length, ?_⟩
  have h1 : l.reverse.takeWhile (fun c => c == '0') =
      List.replicate (l.reverse.takeWhile (fun c => c == '0')).length '0' := by
    rw [List.eq_replicate_iff]
    refine ⟨rfl, ?_⟩
    intro b hb
    have := List.mem_takeWhile_imp hb
    simpa using this
  have h2 := List.takeWhile_append_dropWhile (fun c => c == '0') l.reverse
  have h3 : l = (l.reverse.dropWhile (fun c => c == '0')).reverse ++
      (l.reverse.takeWhile (fun c => c == '0')).reverse := by
    rw [← List.reverse_append, h2, List.reverse_reverse]
  rw [h1, List.reverse_replicate] at h3
  simpa [dropTrailingZeros] using h3

theorem fracNanos_digits (n : Nat) (h : n < 1000000000) : fracNanos 9 (digits 9 n) = n := by
  simp only [digits, List.nil_append, List.cons_append, List.append_assoc, fracNanos,
    digitVal_digitChar_mod, Option.getD_some]
  omega

theorem fracNanos_trimmed (n : Nat) (h : n < 1000000000) :
    fracNanos 9 (dropTrailingZeros (digits 9 n)) = n := by
  obtain ⟨m, hm⟩ := dropTrailingZeros_spec (digits 9 n)
  have := fracNanos_append_zeros 9 (dropTrailingZeros (digits 9 n)) m
  rw [← hm, fracNanos_digits n h] at this
  exact this.symm

theorem trimmed_ne_nil (n : Nat) (h : n < 1000000000) (h0 : n ≠ 0) :
    dropTrailingZeros (digits 9 n) ≠ [] := by
  intro he
  have := fracNanos_trimmed n h
  rw [he] at this
  exact h0 this.symm

theorem trimmed_isDigit (n : Nat) : ∀ c ∈ dropTrailingZeros (digits 9 n),
    (digitVal c).isSome = true := by
  intro c hc
  obtain ⟨m, hm⟩ := dropTrailingZeros_spec (digits 9 n)
  exact digits_isDigit 9 n c (by rw [hm]; exact List.mem_append_left _ hc)

theorem takeWhile_append_stop {p : Char → Bool} (a : List Char) (z : Char) (zs : List Char)
    (ha : ∀ c ∈ a, p c = true) (hz : p z = false) :
    (a ++ z :: zs).takeWhile p = a ∧ (a ++ z :: zs).dropWhile p = z :: zs := by
  induction a with
  | nil => simp [List.takeWhile, List.dropWhile, hz]
  | cons x xs ih =>
    have hx := ha x (List.mem_cons_self _ _)
    have ih' := ih (fun c hc => ha c (List.mem_cons_of_mem _ hc))
    simp [List.takeWhile, List.dropWhile, hx, ih'.1, ih'.2]

theorem readFrac_formatFrac (n : Nat) (h : n < 1000000000) (z : Char) (zs : List Char)
    (hz : digitVal z = none) (hdot : z ≠ '.') :
    readFrac (formatFrac n ++ z :: zs) = some (n, z :: zs) := by
  unfold formatFrac
  split
  · rename_i h0
    subst h0
    simp only [List.nil_append]
    unfold readFrac
    split
    · rename_i heq
      injection heq with h1 h2
      exact absurd h1 hdot
    · rfl
  · rename_i h0
    have hstop := takeWhile_append_stop (p := fun c => (digitVal c).isSome)
      (dropTrailingZeros (digits 9 n)) z zs (trimmed_isDigit n) (by simp [hz])
    simp only [List.cons_append, readFrac, hstop.1, hstop.2, trimmed_ne_nil n h h0, if_false,
      fracNanos_trimmed n h]

theorem readDigits_two_end (n : Nat) (h : n < 100) :
    readDigits 2 0 (digits 2 n) = some (n, []) := by
  have := readDigits_two n h []
  rwa [List.append_nil] at this

theorem readZone_formatZone (off : Int) (h1 : -1440 < off) (h2 : off < 1440) :
    readZone (formatZone off) = some off := by
  unfold formatZone
  split
  · rename_i h0; subst h0; rfl
  · rename_i h0
    have hh : off.natAbs / 60 < 100 := by omega
    have hm : off.natAbs % 60 < 100 := by omega
    have hh' : off.natAbs / 60 < 24 := by omega
    have hm' : off.natAbs % 60 < 60 := by omega
    split
    · rename_i hneg
      have e1 : ('-' = 'Z') = False := by decide
      have e2 : ('-' = '+' ∨ '-' = '-') = True := by decide
      simp only [List.append_assoc, List.singleton_append, readZone, e1, e2, if_false, if_true,
        readDigits_two _ hh, expectChar_cons, readDigits_two_end _ hm, hh', hm', and_self]
      simp only [or_true, if_true]
      congr 1
      omega
    · rename_i hneg
      have e1 : ('+' = 'Z') = False := by decide
      have e2 : ('+' = '+' ∨ '+' = '-') = True := by decide
      have e3 : ('+' = '-') = False := by decide
      simp only [List.append_assoc, List.singleton_append, readZone, e1, e2, e3, if_false,
        if_true, readDigits_two _ hh, expectChar_cons, readDigits_two_end _ hm, hh', hm',
        and_self]
      simp only [true_or, or_true, if_true]
      congr 1
      omega
theorem readFrac_frac_zone (n : Nat) (h : n < 1000000000) (off : Int) :
    readFrac (formatFrac n ++ formatZone off) = some (n, formatZone off) := by
  have hz : ∃ z zs, formatZone off = z :: zs ∧ digitVal z = none ∧ z ≠ '.' := by
    unfold formatZone
    split
    · exact ⟨'Z', [], rfl, by decide, by decide⟩
    · split
      · exact ⟨'-', _, rfl, by decide, by decide⟩
      · exact ⟨'+', _, rfl, by decide, by decide⟩
  obtain ⟨z, zs, hzs, hd, hdot⟩ := hz
  rw [hzs]
  exact readFrac_formatFrac n h z zs hd hdot

/-- What `Time.MarshalJSON` prints, `Time.UnmarshalJSON` reads back as the same
time. -/
theorem parseRFC3339_formatRFC3339 (t : Time) (hv : t.Valid) (hy0 : 0 ≤ t.year)
    (hy1 : t.year ≤ 9999) :
    ∃ s, formatRFC3339 t = some s ∧ parseRFC3339 s = some t := by
  have hyr : ¬ (t.year < 0 ∨ 9999 < t.year) := by omega
  obtain ⟨hm1, hm2, hd1, hd2, hh, hmi, hs, hn, ho1, ho2⟩ := hv
  have hday : t.day < 100 := by
    have : daysIn t.year t.month ≤ 31 := by
      unfold daysIn
      split
      · split <;> omega
      · split <;> omega
    omega
  have hf : formatRFC3339 t = some (String.mk (
      digits 4 t.year.toNat ++ ['-'] ++ digits 2 t.month ++ ['-'] ++ digits 2 t.day ++ ['T'] ++
      digits 2 t.hour ++ [':'] ++ digits 2 t.minute ++ [':'] ++ digits 2 t.second ++
      formatFrac t.nano ++ formatZone t.offset)) := by
    simp only [formatRFC3339, hyr, if_false]
  refine ⟨_, hf, ?_⟩
  simp only [parseRFC3339, List.append_assoc, List.singleton_append, List.cons_append,
    List.nil_append,
    readDigits_four t.year.toNat (by omega), expectChar_cons,
    readDigits_two t.month (by omega), readDigits_two t.day hday,
    readDigits_two t.hour (by omega), readDigits_two t.minute (by omega),
    readDigits_two t.second (by omega), readFrac_frac_zone t.nano hn,
    readZone_formatZone t.offset ho1 ho2]
  have hyy : ((t.year.toNat : Nat) : Int) = t.year := Int.toNat_of_nonneg hy0
  have hvalid : (⟨t.year, t.month, t.day, t.hour, t.minute, t.second, t.nano, t.offset⟩ :
      Time).Valid := ⟨hm1, hm2, hd1, hd2, hh, hmi, hs, hn, ho1, ho2⟩
  simp only [hyy, hvalid, if_true]
/-! ## Lemmas: an entry is read back as written -/

theorem ascending_unique {fs : List (String × JSON)} (hasc : Ascending fs) {k : String}
    {j j' : JSON} (h1 : (k, j) ∈ fs) (h2 : (k, j') ∈ fs) : j = j' := by
  induction fs with
  | nil => cases h1
  | cons x xs ih =>
    unfold Ascending at hasc ih
    rw [List.pairwise_cons] at hasc
    rcases List.mem_cons.mp h1 with h1 | h1
    · rcases List.mem_cons.mp h2 with h2 | h2
      · rw [← h1] at h2
        injection h2 with _ h2
        exact h2.symm
      · have := hasc.1 (k, j') h2
        rw [← h1] at this
        simp only [keyLt_irrefl] at this
        cases this
    · rcases List.mem_cons.mp h2 with h2 | h2
      · have := hasc.1 (k, j) h1
        rw [← h2] at this
        simp only [keyLt_irrefl] at this
        cases this
      · exact ih hasc.2 h1 h2

theorem lookup_of_mem {β : Type} {k : String} {v : β} {l : List (String × β)}
    (h : (k, v) ∈ l) : ∃ v', List.lookup k l = some v' := by
  induction l with
  | nil => cases h
  | cons x xs ih =>
    obtain ⟨k', v'⟩ := x
    rw [List.lookup_cons]
    split
    · exact ⟨v', rfl⟩
    · rename_i hk
      rcases List.mem_cons.mp h with h | h
      · injection h with h1 _
        subst h1
        simp at hk
      · exact ih h

/-- A member of the encoded mapping is the encoding of the entry of its key. -/
theorem marshalFields_member {kvs : List (String × Value)} {fs : List (String × JSON)}
    (h : marshalFields kvs = some fs) {k : String} {j : JSON} (hm : (k, j) ∈ fs) :
    ∃ v, List.lookup k kvs = some v ∧ marshalValue v = some j := by
  obtain ⟨v0, hv0, _⟩ := marshalFields_mem h hm
  obtain ⟨v, hv⟩ := lookup_of_mem hv0
  obtain ⟨j', hj', hm'⟩ := marshalFields_lookup h hv
  have := ascending_unique (marshalFields_ascending h) hm hm'
  subst this
  exact ⟨v, hv, hj'⟩

/-- What a member decoded into another field leaves of each field. -/
theorem decodeDeathField_other (k : String) (j : JSON) (d d' : AmqpDeath)
    (h : decodeDeathField k j d = some d') :
    (findField k ≠ some .count → d'.Count = d.Count) ∧
    (findField k ≠ some .exchange → d'.Exchange = d.Exchange) ∧
    (findField k ≠ some .originalExpiration → d'.OriginalExpiration = d.OriginalExpiration) ∧
    (findField k ≠ some .queue → d'.Queue = d.Queue) ∧
    (findField k ≠ some .reason → d'.Reason = d.Reason) ∧
    (findField k ≠ some .routingKeys → d'.RoutingKeys = d.RoutingKeys) ∧
    (findField k ≠ some .time → d'.Time = d.Time) := by
  unfold decodeDeathField at h
  cases hk : findField k with
  | none =>
    simp only [hk, Option.some.injEq] at h
    subst h
    simp
  | some f =>
    cases f <;> simp only [hk, Option.map_eq_some'] at h <;> obtain ⟨x, _, hx⟩ := h <;>
      subst hx <;> simp

/-- What a member under a tag gives its own field. -/
theorem decodeDeathField_own (j : JSON) (d d' : AmqpDeath) :
    (decodeDeathField "count" j d = some d' → decodeInt j d.Count = some d'.Count) ∧
    (decodeDeathField "exchange" j d = some d' → decodeString j d.Exchange = some d'.Exchange) ∧
    (decodeDeathField "original-expiration" j d = some d' →
      decodeString j d.OriginalExpiration = some d'.OriginalExpiration) ∧
    (decodeDeathField "queue" j d = some d' → decodeString j d.Queue = some d'.Queue) ∧
    (decodeDeathField "reason" j d = some d' → decodeString j d.Reason = some d'.Reason) ∧
    (decodeDeathField "routing-keys" j d = some d' →
      decodeSlice decodeString "" j d.RoutingKeys = some d'.RoutingKeys) ∧
    (decodeDeathField "time" j d = some d' → decodeTime j d.Time = some d'.Time) := by
  have f1 : findField "count" = some .count := by decide
  have f2 : findField "exchange" = some .exchange := by decide
  have f3 : findField "original-expiration" = some .originalExpiration := by decide
  have f4 : findField "queue" = some .queue := by decide
  have f5 : findField "reason" = some .reason := by decide
  have f6 : findField "routing-keys" = some .routingKeys := by decide
  have f7 : findField "time" = some .time := by decide
  refine ⟨?_, ?_, ?_, ?_, ?_, ?_, ?_⟩ <;> intro h
  · simp only [decodeDeathField, f1, Option.map_eq_some'] at h
    obtain ⟨x, hx, hd⟩ := h; subst hd; exact hx
  · simp only [decodeDeathField, f2, Option.map_eq_some'] at h
    obtain ⟨x, hx, hd⟩ := h; subst hd; exact hx
  · simp only [decodeDeathField, f3, Option.map_eq_some'] at h
    obtain ⟨x, hx, hd⟩ := h; subst hd; exact hx
  · simp only [decodeDeathField, f4, Option.map_eq_some'] at h
    obtain ⟨x, hx, hd⟩ := h; subst hd; exact hx
  · simp only [decodeDeathField, f5, Option.map_eq_some'] at h
    obtain ⟨x, hx, hd⟩ := h; subst hd; exact hx
  · simp only [decodeDeathField, f6, Option.map_eq_some'] at h
    obtain ⟨x, hx, hd⟩ := h; subst hd; exact hx
  · simp only [decodeDeathField, f7, Option.map_eq_some'] at h
    obtain ⟨x, hx, hd⟩ := h; subst hd; exact hx

/-- In an entry without case variants of the tag of a field, the field is decoded
from the member under the tag, starting from its initial value; without such a
member it keeps its initial value. -/
theorem field_value {α : Type} (get : AmqpDeath → α) (f : DeathField)
    (dec : JSON → α → Option α)
    (hstep : ∀ k j d d', decodeDeathField k j d = some d' → findField k ≠ some f →
      get d' = get d)
    (hown : ∀ j d d', decodeDeathField f.tag j d = some d' → dec j (get d) = some (get d'))
    {efs : List (String × JSON)} (hasc : Ascending efs)
    (hplain : ∀ x ∈ efs, findField x.1 = some f → x.1 = f.tag) (d0 d : AmqpDeath)
    (h : decodeDeathFields efs d0 = some d) :
    (∀ j, (f.tag, j) ∈ efs → dec j (get d0) = some (get d)) ∧
    ((∀ j, (f.tag, j) ∉ efs) → get d = get d0) := by
  constructor
  · intro j hm
    obtain ⟨pre, post, hsplit⟩ := List.append_of_mem hm
    subst hsplit
    unfold Ascending at hasc
    rw [List.pairwise_append] at hasc
    have hpost : ∀ x ∈ post, findField x.1 ≠ some f := by
      intro x hx hxf
      have e := hplain x (List.mem_append_right _ (List.mem_cons_of_mem _ hx)) hxf
      have hlt := (List.pairwise_cons.mp hasc.2.1).1 x hx
      simp only [e, keyLt_irrefl] at hlt
      cases hlt
    have hpre : ∀ x ∈ pre, findField x.1 ≠ some f := by
      intro x hx hxf
      have e := hplain x (List.mem_append_left _ hx) hxf
      have hlt := hasc.2.2 x hx (f.tag, j) (List.mem_cons_self _ _)
      simp only [e, keyLt_irrefl] at hlt
      cases hlt
    obtain ⟨d1, d2, h1, h2, h3⟩ := decodeDeathFields_split get f hstep pre post _ _ d0 d h hpost
    have h4 := decodeDeathFields_preserves get f hstep pre d0 d1 h1 hpre
    rw [h3, ← h4]
    exact hown j d1 d2 h2
  · intro hno
    refine decodeDeathFields_preserves get f hstep efs d0 d h ?_
    intro x hx hxf
    have e := hplain x hx hxf
    exact hno x.2 (by rw [← e]; exact hx)

theorem decodeDeathFields_isSome {efs : List (String × JSON)}
    (h : ∀ x ∈ efs, ∀ d, decodeDeathField x.1 x.2 d ≠ none) (d0 : AmqpDeath) :
    ∃ d, decodeDeathFields efs d0 = some d := by
  induction efs generalizing d0 with
  | nil => exact ⟨d0, rfl⟩
  | cons x xs ih =>
    obtain ⟨k, j⟩ := x
    cases h1 : decodeDeathField k j d0 with
    | none => exact absurd h1 (h (k, j) (List.mem_cons_self _ _) d0)
    | some d1 =>
      obtain ⟨d, hd⟩ := ih (fun y hy => h y (List.mem_cons_of_mem _ hy)) d1
      exact ⟨d, by simp only [decodeDeathFields, h1, hd]⟩

theorem read_count {v : Value} {c : Int} {j : JSON} (hr : readCount (some v) = some c)
    (hj : marshalValue v = some j) :
    (∀ old, decodeInt j old ≠ none) ∧ decodeInt j 0 = some c := by
  cases v with
  | null =>
    simp only [marshalValue, Option.some.injEq] at hj; subst hj
    simp only [readCount, Option.some.injEq] at hr; subst hr
    exact ⟨fun old => by simp [decodeInt], rfl⟩
  | int n =>
    simp only [marshalValue, Option.some.injEq] at hj; subst hj
    simp only [readCount] at hr
    split at hr
    · rename_i hn
      injection hr with hr; subst hr
      exact ⟨fun old => by simp [decodeInt, hn], by simp [decodeInt, hn]⟩
    · cases hr
  | bool b => simp [readCount] at hr
  | float f => simp [readCount] at hr
  | str s => simp [readCount] at hr
  | bytes bs => simp [readCount] at hr
  | decimal a b => simp [readCount] at hr
  | time t => simp [readCount] at hr
  | array xs => simp [readCount] at hr
  | table kvs => simp [readCount] at hr

theorem read_string {v : Value} {s : String} {j : JSON} (hr : readString (some v) = some s)
    (hj : marshalValue v = some j) :
    (∀ old, decodeString j old ≠ none) ∧ decodeString j "" = some s := by
  cases v with
  | null =>
    simp only [marshalValue, Option.some.injEq] at hj; subst hj
    simp only [readString, Option.some.injEq] at hr; subst hr
    exact ⟨fun old => by simp [decodeString], rfl⟩
  | str t =>
    simp only [marshalValue, Option.some.injEq] at hj; subst hj
    simp only [readString, Option.some.injEq] at hr; subst hr
    exact ⟨fun old => by simp [decodeString], rfl⟩
  | bool b => simp [readString] at hr
  | int n => simp [readString] at hr
  | float f => simp [readString] at hr
  | bytes bs => simp [readString] at hr
  | decimal a b => simp [readString] at hr
  | time t => simp [readString] at hr
  | array xs => simp [readString] at hr
  | table kvs => simp [readString] at hr

theorem read_strings {xs : List Value} {ss : List String} (hr : readStrings xs = some ss) :
    marshalList xs = some (ss.map JSON.str) := by
  induction xs generalizing ss with
  | nil => simp only [readStrings, Option.some.injEq] at hr; subst hr; rfl
  | cons x rest ih =>
    cases x with
    | str s =>
      simp only [readStrings] at hr
      split at hr
      · rename_i ss' hss
        injection hr with hr; subst hr
        simp only [marshalList, marshalValue, ih hss, List.map_cons]
      · cases hr
    | null => simp [readStrings] at hr
    | bool b => simp [readStrings] at hr
    | int n => simp [readStrings] at hr
    | float f => simp [readStrings] at hr
    | bytes bs => simp [readStrings] at hr
    | decimal a b => simp [readStrings] at hr
    | time t => simp [readStrings] at hr
    | array ys => simp [readStrings] at hr
    | table kvs => simp [readStrings] at hr

theorem decodeElems_strs (l : List String) (backing : List String) :
    decodeElems decodeString "" (l.map JSON.str) backing = some l := by
  induction l generalizing backing with
  | nil => rfl
  | cons s ss ih => simp only [List.map_cons, decodeElems, decodeString, ih]

theorem read_keys {v : Value} {ks : Slice String} {j : JSON} (hr : readKeys (some v) = some ks)
    (hj : marshalValue v = some j) :
    (∀ old, decodeSlice decodeString "" j old ≠ none) ∧
      decodeSlice decodeString "" j (Slice.ofList []) = some ks := by
  cases v with
  | null =>
    simp only [marshalValue, Option.some.injEq] at hj; subst hj
    simp only [readKeys, Option.some.injEq] at hr; subst hr
    exact ⟨fun old => by simp [decodeSlice], rfl⟩
  | array xs =>
    simp only [readKeys] at hr
    split at hr
    · rename_i ss hss
      injection hr with hr; subst hr
      simp only [marshalValue, read_strings hss, Option.map_some', Option.some.injEq] at hj
      subst hj
      cases ss with
      | nil => exact ⟨fun old => by simp [decodeSlice], rfl⟩
      | cons s ss' =>
        refine ⟨fun old => ?_, ?_⟩
        · have := decodeElems_strs (s :: ss') (old.elems ++ old.spare)
          simp only [List.map_cons] at this
          simp [decodeSlice, this]
        · have := decodeElems_strs (s :: ss') []
          simp only [List.map_cons] at this
          simp only [List.map_cons, decodeSlice, Slice.ofList, List.append_nil, this,
            Option.map_some', List.drop_nil]
    · cases hr
  | bool b => simp [readKeys] at hr
  | int n => simp [readKeys] at hr
  | float f => simp [readKeys] at hr
  | str s => simp [readKeys] at hr
  | bytes bs => simp [readKeys] at hr
  | decimal a b => simp [readKeys] at hr
  | time t => simp [readKeys] at hr
  | table kvs => simp [readKeys] at hr

theorem read_time {v : Value} {t : Time} {j : JSON} (hr : readTime (some v) = some t)
    (hj : marshalValue v = some j) :
    (∀ old, decodeTime j old ≠ none) ∧ decodeTime j ⟨1, 1, 1, 0, 0, 0, 0, 0⟩ = some t := by
  cases v with
  | null =>
    simp only [marshalValue, Option.some.injEq] at hj; subst hj
    simp only [readTime, Option.some.injEq] at hr; subst hr
    exact ⟨fun old => by simp [decodeTime], rfl⟩
  | time u =>
    simp only [readTime] at hr
    split at hr
    · rename_i hu
      injection hr with hr; subst hr
      obtain ⟨s, hs, hp⟩ := parseRFC3339_formatRFC3339 u hu.1 hu.2.1 hu.2.2
      simp only [marshalValue, hs, Option.map_some', Option.some.injEq] at hj
      subst hj
      exact ⟨fun old => by simp [decodeTime, hp], by simp [decodeTime, hp]⟩
    · cases hr
  | str s =>
    simp only [marshalValue, Option.some.injEq] at hj; subst hj
    simp only [readTime] at hr
    exact ⟨fun old => by simp [decodeTime, hr], by simp [decodeTime, hr]⟩
  | bool b => simp [readTime] at hr
  | int n => simp [readTime] at hr
  | float f => simp [readTime] at hr
  | bytes bs => simp [readTime] at hr
  | decimal a b => simp [readTime] at hr
  | array xs => simp [readTime] at hr
  | table kvs => simp [readTime] at hr

theorem plainKeys_spec {e : Table} (hp : plainKeys e = true) {k : String} {v : Value}
    (hm : (k, v) ∈ e) {f : DeathField} (hf : findField k = some f) : k = f.tag := by
  simp only [plainKeys, List.all_eq_true] at hp
  have := hp (k, v) hm
  simp only [hf, beq_iff_eq] at this
  exact this

theorem not_mem_of_lookup_none {kvs : List (String × Value)} {fs : List (String × JSON)}
    (h : marshalFields kvs = some fs) {k : String} (hl : List.lookup k kvs = none) :
    ∀ j, (k, j) ∉ fs := by
  intro j hm
  obtain ⟨v, hv, _⟩ := marshalFields_member h hm
  rw [hl] at hv
  cases hv

/-- The encoding of a well-formed entry is decoded into the record that the entry
carries. -/
theorem decodeDeathFields_entry {e : Table} {d : AmqpDeath} (hp : plainKeys e = true)
    (hr : entryRecord e = some d) {efs : List (String × JSON)}
    (hm : marshalFields e = some efs) :
    decodeDeathFields efs AmqpDeath.zero = some d := by
  have hasc := marshalFields_ascending hm
  have hplain : ∀ (f : DeathField), ∀ x ∈ efs, findField x.1 = some f → x.1 = f.tag := by
    intro f x hx hf
    obtain ⟨v, hv, _⟩ := marshalFields_mem hm (k := x.1) (j := x.2) hx
    exact plainKeys_spec hp hv hf
  simp only [entryRecord] at hr
  split at hr
  · rename_i c ex oe q r ks t hc hex hoe hq hrs hks ht
    injection hr with hr
    subst hr
    have hsome : ∀ x ∈ efs, ∀ d0, decodeDeathField x.1 x.2 d0 ≠ none := by
      intro x hx d0
      obtain ⟨v, hv, hj⟩ := marshalFields_member hm (k := x.1) (j := x.2) hx
      unfold decodeDeathField
      cases hf : findField x.1 with
      | none => simp
      | some f =>
        have hk := hplain f x hx hf
        rw [hk] at hv
        cases f <;> simp only [DeathField.tag] at hv <;> simp only [ne_eq, Option.map_eq_none']
        · rw [hv] at hc; exact (read_count hc hj).1 _
        · rw [hv] at hex; exact (read_string hex hj).1 _
        · rw [hv] at hoe; exact (read_string hoe hj).1 _
        · rw [hv] at hq; exact (read_string hq hj).1 _
        · rw [hv] at hrs; exact (read_string hrs hj).1 _
        · rw [hv] at hks; exact (read_keys hks hj).1 _
        · rw [hv] at ht; exact (read_time ht hj).1 _
    obtain ⟨d', hd'⟩ := decodeDeathFields_isSome hsome AmqpDeath.zero
    rw [hd']
    have key : ∀ {α : Type} (get : AmqpDeath → α) (f : DeathField) (dec : JSON → α → Option α)
        (read : Option Value → Option α) (x : α),
        (∀ k j d1 d2, decodeDeathField k j d1 = some d2 → findField k ≠ some f →
          get d2 = get d1) →
        (∀ j d1 d2, decodeDeathField f.tag j d1 = some d2 → dec j (get d1) = some (get d2)) →
        read (e.lookup f.tag) = some x →
        read none = some (get AmqpDeath.zero) →
        (∀ v j, read (some v) = some x → marshalValue v = some j →
          dec j (get AmqpDeath.zero) = some x) →
        get d' = x := by
      intro α get f dec read x hstep hown hread hnone hsomev
      have fv := field_value get f dec hstep hown hasc (hplain f) AmqpDeath.zero d' hd'
      cases hl : e.lookup f.tag with
      | none =>
        rw [hl, hnone] at hread
        injection hread with hread
        rw [fv.2 (not_mem_of_lookup_none hm hl), hread]
      | some v =>
        obtain ⟨j, hj, hmem⟩ := marshalFields_lookup hm hl
        rw [hl] at hread
        have h1 := fv.1 j hmem
        rw [hsomev v j hread hj] at h1
        injection h1 with h1
        exact h1.symm
    have e1 := key (fun d => d.Count) .count decodeInt readCount c
      (fun k j d1 d2 h hf => (decodeDeathField_other k j d1 d2 h).1 hf)
      (fun j d1 d2 h => (decodeDeathField_own j d1 d2).1 h) hc rfl
      (fun v j h hj => (read_count h hj).2)
    have e2 := key (fun d => d.Exchange) .exchange decodeString readString ex
      (fun k j d1 d2 h hf => (decodeDeathField_other k j d1 d2 h).2.1 hf)
      (fun j d1 d2 h => (decodeDeathField_own j d1 d2).2.1 h) hex rfl
      (fun v j h hj => (read_string h hj).2)
    have e3 := key (fun d => d.OriginalExpiration) .originalExpiration decodeString readString oe
      (fun k j d1 d2 h hf => (decodeDeathField_other k j d1 d2 h).2.2.1 hf)
      (fun j d1 d2 h => (decodeDeathField_own j d1 d2).2.2.1 h) hoe rfl
      (fun v j h hj => (read_string h hj).2)
    have e4 := key (fun d => d.Queue) .queue decodeString readString q
      (fun k j d1 d2 h hf => (decodeDeathField_other k j d1 d2 h).2.2.2.1 hf)
      (fun j d1 d2 h => (decodeDeathField_own j d1 d2).2.2.2.1 h) hq rfl
      (fun v j h hj => (read_string h hj).2)
    have e5 := key (fun d => d.Reason) .reason decodeString readString r
      (fun k j d1 d2 h hf => (decodeDeathField_other k j d1 d2 h).2.2.2.2.1 hf)
      (fun j d1 d2 h => (decodeDeathField_own j d1 d2).2.2.2.2.1 h) hrs rfl
      (fun v j h hj => (read_string h hj).2)
    have e6 := key (fun d => d.RoutingKeys) .routingKeys (decodeSlice decodeString "") readKeys ks
      (fun k j d1 d2 h hf => (decodeDeathField_other k j d1 d2 h).2.2.2.2.2.1 hf)
      (fun j d1 d2 h => (decodeDeathField_own j d1 d2).2.2.2.2.2.1 h) hks rfl
      (fun v j h hj => (read_keys h hj).2)
    have e7 := key (fun d => d.Time) .time decodeTime readTime t
      (fun k j d1 d2 h hf => (decodeDeathField_other k j d1 d2 h).2.2.2.2.2.2 hf)
      (fun j d1 d2 h => (decodeDeathField_own j d1 d2).2.2.2.2.2.2 h) ht rfl
      (fun v j h hj => (read_time h hj).2)
    obtain ⟨c', ex', oe', q', r', ks', t'⟩ := d'
    simp only at e1 e2 e3 e4 e5 e6 e7
    subst e1 e2 e3 e4 e5 e6 e7
    rfl
  · cases hr

/-- The encodings of well-formed entries are decoded, into a fresh slice, into the
records that the entries carry. -/
theorem decodeElems_entries (es : List Table)
    (hwf : ∀ x ∈ es, plainKeys x = true ∧ (entryRecord x).isSome = true) (js : List JSON)
    (hjs : marshalList (es.map Value.table) = some js) :
    ∃ ds, decodeElems decodeDeath AmqpDeath.zero js [] = some ds ∧
      ds.length = es.length ∧ js.length = es.length ∧
      ds.head? = es.head?.bind entryRecord := by
  induction es generalizing js with
  | nil =>
    simp only [List.map_nil, marshalList, Option.some.injEq] at hjs
    subst hjs
    exact ⟨[], rfl, rfl, rfl, rfl⟩
  | cons e rest ih =>
    simp only [List.map_cons, marshalList] at hjs
    split at hjs
    · rename_i j0 js0 h0 h1
      injection hjs with hjs
      subst hjs
      obtain ⟨ds, hds, hlen, hlen2, _⟩ := ih (fun x hx => hwf x (List.mem_cons_of_mem _ hx)) js0 h1
      simp only [marshalValue, Option.map_eq_some'] at h0
      obtain ⟨efs, hefs, hj0⟩ := h0
      subst hj0
      obtain ⟨hp, hsome⟩ := hwf e (List.mem_cons_self _ _)
      cases hr : entryRecord e with
      | none => simp [hr] at hsome
      | some d =>
        have hd := decodeDeathFields_entry hp hr hefs
        refine ⟨d :: ds, ?_, by simp [hlen], by simp [hlen2], ?_⟩
        · simp only [decodeElems, List.headD_nil, decodeDeath, hd, List.tail_nil, hds]
        · simp [hr]
    · cases hjs

/-- With one member that is decoded into `XDeath`, the field is decoded from that
member alone. -/
theorem decodeHeaderFields_single {fs : List (String × JSON)} (hasc : Ascending fs)
    {k : String} {j : JSON} (hm : (k, j) ∈ fs) (hk : isXDeathKey k = true)
    (honly : ∀ x ∈ fs, isXDeathKey x.1 = true → x.1 = k) (h : Headers) (s : Slice AmqpDeath)
    (hs : decodeSlice decodeDeath AmqpDeath.zero j h.XDeath = some s) :
    decodeHeaderFields fs h = some ⟨s⟩ := by
  obtain ⟨pre, post, hsplit⟩ := List.append_of_mem hm
  subst hsplit
  unfold Ascending at hasc
  rw [List.pairwise_append] at hasc
  obtain ⟨_, hpost, hpre⟩ := hasc
  have hpre' : ∀ x ∈ pre, isXDeathKey x.1 = false := by
    intro x hx
    cases hx' : isXDeathKey x.1 with
    | false => rfl
    | true =>
      have e := honly x (List.mem_append_left _ hx) hx'
      have hlt := hpre x hx (k, j) (List.mem_cons_self _ _)
      simp only [e, keyLt_irrefl] at hlt
      cases hlt
  have hpost' : ∀ x ∈ post, isXDeathKey x.1 = false := by
    intro x hx
    cases hx' : isXDeathKey x.1 with
    | false => rfl
    | true =>
      have e := honly x (List.mem_append_right _ (List.mem_cons_of_mem _ hx)) hx'
      have hlt := (List.pairwise_cons.mp hpost).1 x hx
      simp only [e, keyLt_irrefl] at hlt
      cases hlt
  simp only [decodeHeaderFields_append, decodeHeaderFields_skip h hpre', Option.bind,
    decodeHeaderFields, hk, if_true, hs, decodeHeaderFields_skip _ hpost']

/-- C1, the claim as stated fails: a mapping whose `x-death` value is one
well-formed entry, and which also holds a `NaN` under another key, gives nil,
because `json.Marshal` rejects the mapping as a whole; so does one that also holds
a string under the key `X-DEATH`, which is decoded into the same field. -/
theorem ParseDeathHeader_nil_despite_entry :
    ParseDeathHeader [("x-death", Value.array [.table [("count", .int 2),
        ("exchange", .str "dlx"), ("queue", .str "retry.q"), ("reason", .str "expired"),
        ("routing-keys", .array [.str "orders.created"]),
        ("time", .str "2023-01-01T00:00:00Z")]])] =
      some ⟨2, "dlx", "", "retry.q", "expired", Slice.ofList ["orders.created"],
        ⟨2023, 1, 1, 0, 0, 0, 0, 0⟩⟩ ∧
    ParseDeathHeader [("x-death", Value.array [.table [("count", .int 2),
        ("exchange", .str "dlx"), ("queue", .str "retry.q"), ("reason", .str "expired"),
        ("routing-keys", .array [.str "orders.created"]),
        ("time", .str "2023-01-01T00:00:00Z")]]), ("ratio", .float .nan)] = none ∧
    ParseDeathHeader [("x-death", Value.array [.table [("count", .int 2),
        ("exchange", .str "dlx"), ("queue", .str "retry.q"), ("reason", .str "expired"),
        ("routing-keys", .array [.str "orders.created"]),
        ("time", .str "2023-01-01T00:00:00Z")]]), ("X-DEATH", .str "none")] = none := by
  decide

/-- C1, amended: for every mapping that `json.Marshal` accepts, whose `x-death`
value is a sequence of N >= 1 well-formed entries (each field absent or of its type,
no key a case variant of a field tag) and none of whose other keys matches
`x-death` case-insensitively, `ParseDeathHeader` returns a record, and it is the
record that the first entry carries: each of the seven fields has the value the
entry gives it, and the zero value when the entry has no such field. -/
theorem ParseDeathHeader_first_entry (hs : Table) (e : Table) (es : List Table)
    (hx : List.lookup "x-death" hs = some (.array ((e :: es).map Value.table)))
    (hwf : ∀ x ∈ e :: es, plainKeys x = true ∧ (entryRecord x).isSome = true)
    (henc : (jsonMarshal hs).isSome = true)
    (hkeys : ∀ kv ∈ hs, isXDeathKey kv.1 = true → kv.1 = "x-death") :
    (ParseDeathHeader hs).isSome = true ∧ ParseDeathHeader hs = entryRecord e := by
  cases hm : jsonMarshal hs with
  | none => simp [hm] at henc
  | some js =>
    obtain ⟨fs, hjs, hfs⟩ := jsonMarshal_eq_some hm
    subst hjs
    obtain ⟨j, hj, hmem⟩ := marshalFields_lookup hfs hx
    simp only [marshalValue, Option.map_eq_some'] at hj
    obtain ⟨js, hjs, hjj⟩ := hj
    subst hjj
    obtain ⟨ds, hdec, hlen, hlen2, hhead⟩ := decodeElems_entries (e :: es) hwf js hjs
    have hsl : decodeSlice decodeDeath AmqpDeath.zero (.arr js) (Slice.ofList []) =
        some ⟨ds, []⟩ := by
      cases js with
      | nil => simp at hlen2
      | cons j0 js0 =>
        simp only [decodeSlice, Slice.ofList, List.append_nil, hdec, Option.map_some',
          List.drop_nil]
    have honly : ∀ x ∈ fs, isXDeathKey x.1 = true → x.1 = "x-death" := by
      intro x hx hxk
      obtain ⟨v, hv, _⟩ := marshalFields_mem hfs (k := x.1) (j := x.2) hx
      exact hkeys _ hv hxk
    have hu := decodeHeaderFields_single (marshalFields_ascending hfs) hmem (by decide) honly
      ⟨Slice.ofList []⟩ _ hsl
    cases ds with
    | nil => simp at hlen
    | cons d ds' =>
      simp only [List.head?_cons, Option.some_bind] at hhead
      have hp : ParseDeathHeader hs = some d := by
        simp only [ParseDeathHeader, hm, jsonUnmarshal, hu]
        rfl
      rw [hp, ← hhead]
      exact ⟨rfl, rfl⟩

/-- Witness of C1 amended: the mapping of the spec's scenario, whose entry gives
the time as text and has no `original-expiration`. -/
theorem ParseDeathHeader_first_entry_witness :
    ParseDeathHeader [("x-death", Value.array [.table [("count", .int 2),
        ("exchange", .str "dlx"), ("queue", .str "retry.q"), ("reason", .str "expired"),
        ("routing-keys", .array [.str "orders.created"]),
        ("time", .str "2023-01-01T00:00:00Z")]])] =
      some ⟨2, "dlx", "", "retry.q", "expired", Slice.ofList ["orders.created"],
        ⟨2023, 1, 1, 0, 0, 0, 0, 0⟩⟩ :=
  (ParseDeathHeader_first_entry
      [("x-death", Value.array [.table [("count", .int 2),
        ("exchange", .str "dlx"), ("queue", .str "retry.q"), ("reason", .str "expired"),
        ("routing-keys", .array [.str "orders.created"]),
        ("time", .str "2023-01-01T00:00:00Z")]])]
      [("count", .int 2),
      ("exchange", .str "dlx"), ("queue", .str "retry.q"), ("reason", .str "expired"),
      ("routing-keys", .array [.str "orders.created"]),
      ("time", .str "2023-01-01T00:00:00Z")] [] rfl (by decide) (by decide) (by decide)).2.trans
    (by decide)

/-! ## Lemmas: reading a document back -/

theorem rereads_num (l : NumLit) : Rereads (.num l) := by
  intro v hv
  cases l with
  | int n =>
    simp only [genericDecode, genericNum, Option.map_eq_some'] at hv
    obtain ⟨l', hl', hv'⟩ := hv
    subst hv'
    exact ⟨.num l', by simp only [refloat, refloatNum, hl', Option.map_some'], rfl⟩
  | nonInt t =>
    simp only [genericDecode, genericNum, Option.some.injEq] at hv
    subst hv
    exact ⟨.num (.nonInt t), rfl, rfl⟩

theorem rereads_arr {js : List JSON} (h : ∀ j ∈ js, Rereads j) : Rereads (.arr js) := by
  have key : ∀ vs, genericDecodeList js = some vs →
      ∃ js', refloatList js = some js' ∧ marshalList vs = some js' := by
    induction js with
    | nil =>
      intro vs hvs
      simp only [genericDecodeList, Option.some.injEq] at hvs
      subst hvs
      exact ⟨[], rfl, rfl⟩
    | cons j js ih =>
      intro vs hvs
      simp only [genericDecodeList] at hvs
      split at hvs
      · rename_i v vs' hv hvs'
        injection hvs with hvs
        subst hvs
        obtain ⟨js', h1, h2⟩ := ih (fun x hx => h x (List.mem_cons_of_mem _ hx)) vs' hvs'
        obtain ⟨j', h3, h4⟩ := h j (List.mem_cons_self _ _) v hv
        exact ⟨j' :: js', by simp only [refloatList, h3, h1], by simp only [marshalList, h4, h2]⟩
      · cases hvs
  intro v hv
  simp only [genericDecode, Option.map_eq_some'] at hv
  obtain ⟨vs, hvs, hv'⟩ := hv
  subst hv'
  obtain ⟨js', h1, h2⟩ := key vs hvs
  exact ⟨.arr js', by simp only [refloat, h1, Option.map_some'],
    by simp only [marshalValue, h2, Option.map_some']⟩

theorem insertField_lt (k : String) (j : JSON) (l : List (String × JSON))
    (h : ∀ x ∈ l, keyLt k x.1 = true) : insertField k j l = (k, j) :: l := by
  cases l with
  | nil => rfl
  | cons x xs =>
    obtain ⟨k', j'⟩ := x
    have := h (k', j') (List.mem_cons_self _ _)
    simp only at this
    simp only [insertField, this, if_true]

theorem refloatFields_keys {fs fs' : List (String × JSON)} (h : refloatFields fs = some fs') :
    ∀ x ∈ fs', ∃ y ∈ fs, y.1 = x.1 := by
  induction fs generalizing fs' with
  | nil =>
    simp only [refloatFields, Option.some.injEq] at h
    subst h
    intro x hx; cases hx
  | cons y ys ih =>
    obtain ⟨k, j⟩ := y
    simp only [refloatFields] at h
    split at h
    · rename_i j' ys' _ hys
      injection h with h
      subst h
      intro x hx
      rcases List.mem_cons.mp hx with hx | hx
      · subst hx; exact ⟨(k, j), List.mem_cons_self _ _, rfl⟩
      · obtain ⟨y, hy, hk⟩ := ih hys x hx
        exact ⟨y, List.mem_cons_of_mem _ hy, hk⟩
    · cases h

theorem rereads_fields {fs : List (String × JSON)} (hasc : Ascending fs)
    (h : ∀ x ∈ fs, Rereads x.2) (kvs : List (String × Value))
    (hd : genericDecodeFields fs = some kvs) :
    ∃ fs', refloatFields fs = some fs' ∧ marshalFields kvs = some fs' := by
  induction fs generalizing kvs with
  | nil =>
    simp only [genericDecodeFields, Option.some.injEq] at hd
    subst hd
    exact ⟨[], rfl, rfl⟩
  | cons x xs ih =>
    obtain ⟨k, j⟩ := x
    unfold Ascending at hasc ih
    rw [List.pairwise_cons] at hasc
    simp only [genericDecodeFields] at hd
    split at hd
    · rename_i v vs hv hvs
      injection hd with hd
      obtain ⟨xs', h1, h2⟩ := ih hasc.2 (fun y hy => h y (List.mem_cons_of_mem _ hy)) vs hvs
      obtain ⟨j', h3, h4⟩ := h (k, j) (List.mem_cons_self _ _) v hv
      have hlt : ∀ y ∈ xs', keyLt k y.1 = true := by
        intro y hy
        obtain ⟨z, hz, hzk⟩ := refloatFields_keys h1 y hy
        rw [← hzk]
        exact hasc.1 z hz
      have hno : (vs.lookup k).isSome = false := by
        cases hl : vs.lookup k with
        | none => rfl
        | some w =>
          obtain ⟨j'', _, hmem⟩ := marshalFields_lookup h2 hl
          have := hlt (k, j'') hmem
          simp only [keyLt_irrefl] at this
          cases this
      simp only [hno, Bool.false_eq_true, if_false] at hd
      subst hd
      exact ⟨(k, j') :: xs', by simp only [refloatFields, h3, h1],
        by simp only [marshalFields, h4, h2, insertField_lt k j' xs' hlt]⟩
    · cases hd

theorem rereads_obj {fs : List (String × JSON)} (hasc : Ascending fs)
    (h : ∀ x ∈ fs, Rereads x.2) : Rereads (.obj fs) := by
  intro v hv
  simp only [genericDecode, Option.map_eq_some'] at hv
  obtain ⟨kvs, hkvs, hv'⟩ := hv
  subst hv'
  obtain ⟨fs', h1, h2⟩ := rereads_fields hasc h kvs hkvs
  exact ⟨.obj fs', by simp only [refloat, h1, Option.map_some'],
    by simp only [marshalValue, h2, Option.map_some']⟩

mutual
theorem rereads_marshalValue : ∀ (v : Value) (j : JSON), marshalValue v = some j → Rereads j
  | .null, j, h => by
    simp only [marshalValue, Option.some.injEq] at h; subst h
    intro v hv
    simp only [genericDecode, Option.some.injEq] at hv; subst hv
    exact ⟨.null, rfl, rfl⟩
  | .bool b, j, h => by
    simp only [marshalValue, Option.some.injEq] at h; subst h
    intro v hv
    simp only [genericDecode, Option.some.injEq] at hv; subst hv
    exact ⟨.bool b, rfl, rfl⟩
  | .int n, j, h => by
    simp only [marshalValue, Option.some.injEq] at h; subst h
    exact rereads_num _
  | .float .nan, j, h => by simp [marshalValue] at h
  | .float .posInf, j, h => by simp [marshalValue] at h
  | .float .negInf, j, h => by simp [marshalValue] at h
  | .float (.finite l), j, h => by
    simp only [marshalValue, Option.some.injEq] at h; subst h
    exact rereads_num _
  | .str s, j, h => by
    simp only [marshalValue, Option.some.injEq] at h; subst h
    intro v hv
    simp only [genericDecode, Option.some.injEq] at hv; subst hv
    exact ⟨.str s, rfl, rfl⟩
  | .bytes bs, j, h => by
    simp only [marshalValue, Option.some.injEq] at h; subst h
    intro v hv
    simp only [genericDecode, Option.some.injEq] at hv; subst hv
    exact ⟨.str _, rfl, rfl⟩
  | .decimal scale value, j, h => by
    simp only [marshalValue, Option.some.injEq] at h; subst h
    refine rereads_obj ?_ ?_
    · unfold Ascending
      simp only [List.pairwise_cons, List.mem_singleton, forall_eq, List.not_mem_nil,
        false_implies, implies_true, List.Pairwise.nil, and_true]
      decide
    · intro x hx
      simp only [List.mem_cons, List.mem_singleton, List.not_mem_nil, or_false] at hx
      rcases hx with hx | hx
      · subst hx; exact rereads_num _
      · subst hx; exact rereads_num _
  | .time t, j, h => by
    simp only [marshalValue, Option.map_eq_some'] at h
    obtain ⟨s, _, hs⟩ := h
    subst hs
    intro v hv
    simp only [genericDecode, Option.some.injEq] at hv; subst hv
    exact ⟨.str s, rfl, rfl⟩
  | .array xs, j, h => by
    simp only [marshalValue, Option.map_eq_some'] at h
    obtain ⟨js, hjs, hj⟩ := h
    subst hj
    exact rereads_arr (rereads_marshalList xs js hjs)
  | .table kvs, j, h => by
    simp only [marshalValue, Option.map_eq_some'] at h
    obtain ⟨fs, hfs, hj⟩ := h
    subst hj
    exact rereads_obj (marshalFields_ascending hfs) (rereads_marshalFields kvs fs hfs)
theorem rereads_marshalList : ∀ (vs : List Value) (js : List JSON),
    marshalList vs = some js → ∀ j ∈ js, Rereads j
  | [], js, h => by
    simp only [marshalList, Option.some.injEq] at h; subst h
    intro j hj; cases hj
  | x :: xs, js, h => by
    simp only [marshalList] at h
    split at h
    · rename_i j0 js0 h0 h1
      injection h with h
      subst h
      intro j hj
      rcases List.mem_cons.mp hj with hj | hj
      · subst hj; exact rereads_marshalValue x _ h0
      · exact rereads_marshalList xs js0 h1 j hj
    · cases h
theorem rereads_marshalFields : ∀ (kvs : List (String × Value)) (fs : List (String × JSON)),
    marshalFields kvs = some fs → ∀ x ∈ fs, Rereads x.2
  | [], fs, h => by
    simp only [marshalFields, Option.some.injEq] at h; subst h
    intro x hx; cases hx
  | (k, v) :: rest, fs, h => by
    simp only [marshalFields] at h
    split at h
    · rename_i j0 js0 h0 h1
      injection h with h
      subst h
      intro x hx
      rcases mem_insertField hx with hx | hx
      · subst hx; exact rereads_marshalValue v _ h0
      · exact rereads_marshalFields rest js0 h1 x hx
    · cases h
end

/-! ## Lemmas: decoding a document whose numbers were read as `float64` -/

theorem decodeString_refloat {j j' : JSON} (h : refloat j = some j') (x : String) :
    decodeString j x = decodeString j' x := by
  cases j with
  | null => simp only [refloat, Option.some.injEq] at h; subst h; rfl
  | bool b => simp only [refloat, Option.some.injEq] at h; subst h; rfl
  | str s => simp only [refloat, Option.some.injEq] at h; subst h; rfl
  | num l =>
    simp only [refloat, Option.map_eq_some'] at h
    obtain ⟨l', _, h'⟩ := h; subst h'; rfl
  | arr xs =>
    simp only [refloat, Option.map_eq_some'] at h
    obtain ⟨l', _, h'⟩ := h; subst h'; rfl
  | obj kvs =>
    simp only [refloat, Option.map_eq_some'] at h
    obtain ⟨l', _, h'⟩ := h; subst h'; rfl

theorem decodeTime_refloat {j j' : JSON} (h : refloat j = some j') (x : Time) :
    decodeTime j x = decodeTime j' x := by
  cases j with
  | null => simp only [refloat, Option.some.injEq] at h; subst h; rfl
  | bool b => simp only [refloat, Option.some.injEq] at h; subst h; rfl
  | str s => simp only [refloat, Option.some.injEq] at h; subst h; rfl
  | num l =>
    simp only [refloat, Option.map_eq_some'] at h
    obtain ⟨l', _, h'⟩ := h; subst h'; rfl
  | arr xs =>
    simp only [refloat, Option.map_eq_some'] at h
    obtain ⟨l', _, h'⟩ := h; subst h'; rfl
  | obj kvs =>
    simp only [refloat, Option.map_eq_some'] at h
    obtain ⟨l', _, h'⟩ := h; subst h'; rfl

theorem decodeInt_refloat {j j' : JSON} (h : refloat j = some j')
    (hn : ∀ l, j = .num l → refloatNum l = some l) (x : Int) :
    decodeInt j x = decodeInt j' x := by
  cases j with
  | null => simp only [refloat, Option.some.injEq] at h; subst h; rfl
  | bool b => simp only [refloat, Option.some.injEq] at h; subst h; rfl
  | str s => simp only [refloat, Option.some.injEq] at h; subst h; rfl
  | num l =>
    simp only [refloat, hn l rfl, Option.map_some', Option.some.injEq] at h
    subst h; rfl
  | arr xs =>
    simp only [refloat, Option.map_eq_some'] at h
    obtain ⟨l', _, h'⟩ := h; subst h'; rfl
  | obj kvs =>
    simp only [refloat, Option.map_eq_some'] at h
    obtain ⟨l', _, h'⟩ := h; subst h'; rfl

theorem decodeElems_refloat {α : Type} (dec : JSON → α → Option α) (zero : α)
    {js js' : List JSON} (h : refloatList js = some js')
    (hdec : ∀ j ∈ js, ∀ j', refloat j = some j' → ∀ o, dec j o = dec j' o) (backing : List α) :
    decodeElems dec zero js backing = decodeElems dec zero js' backing ∧
      js'.length = js.length := by
  induction js generalizing js' backing with
  | nil =>
    simp only [refloatList, Option.some.injEq] at h
    subst h
    exact ⟨rfl, rfl⟩
  | cons x xs ih =>
    simp only [refloatList] at h
    split at h
    · rename_i y ys hy hys
      injection h with h
      subst h
      have ih' := ih hys (fun j hj => hdec j (List.mem_cons_of_mem _ hj)) backing.tail
      simp only [decodeElems, hdec x (List.mem_cons_self _ _) y hy, ih'.1, List.length_cons,
        ih'.2, and_self]
    · cases h

theorem decodeSlice_refloat {α : Type} (dec : JSON → α → Option α) (zero : α) {j j' : JSON}
    (h : refloat j = some j')
    (hdec : ∀ js, j = .arr js → ∀ e ∈ js, ∀ e', refloat e = some e' → ∀ o, dec e o = dec e' o)
    (old : Slice α) : decodeSlice dec zero j old = decodeSlice dec zero j' old := by
  cases j with
  | null => simp only [refloat, Option.some.injEq] at h; subst h; rfl
  | bool b => simp only [refloat, Option.some.injEq] at h; subst h; rfl
  | str s => simp only [refloat, Option.some.injEq] at h; subst h; rfl
  | num l =>
    simp only [refloat, Option.map_eq_some'] at h
    obtain ⟨l', _, h'⟩ := h; subst h'; rfl
  | obj kvs =>
    simp only [refloat, Option.map_eq_some'] at h
    obtain ⟨l', _, h'⟩ := h; subst h'; rfl
  | arr xs =>
    simp only [refloat, Option.map_eq_some'] at h
    obtain ⟨xs', hxs, h'⟩ := h
    subst h'
    have key := decodeElems_refloat dec zero hxs (hdec xs rfl) (old.elems ++ old.spare)
    cases xs with
    | nil =>
      simp only [refloatList, Option.some.injEq] at hxs
      subst hxs; rfl
    | cons y ys =>
      cases xs' with
      | nil => simp at key
      | cons y' ys' =>
        have hlen : (y' :: ys').length = (y :: ys).length := key.2
        simp only [decodeSlice, key.1, hlen]

theorem decodeDeathField_refloat {k : String} {j j' : JSON} (h : refloat j = some j')
    (hn : findField k = some .count → ∀ l, j = .num l → refloatNum l = some l)
    (d : AmqpDeath) : decodeDeathField k j d = decodeDeathField k j' d := by
  unfold decodeDeathField
  cases hf : findField k with
  | none => rfl
  | some f =>
    cases f <;> simp only
    · rw [decodeInt_refloat h (hn hf)]
    · rw [decodeString_refloat h]
    · rw [decodeString_refloat h]
    · rw [decodeString_refloat h]
    · rw [decodeString_refloat h]
    · rw [decodeSlice_refloat decodeString "" h
        (fun _ _ e _ e' he' o => decodeString_refloat he' o)]
    · rw [decodeTime_refloat h]

theorem decodeDeathFields_refloat {efs efs' : List (String × JSON)}
    (h : refloatFields efs = some efs')
    (hn : ∀ x ∈ efs, findField x.1 = some .count → ∀ l, x.2 = .num l → refloatNum l = some l)
    (d : AmqpDeath) : decodeDeathFields efs d = decodeDeathFields efs' d := by
  induction efs generalizing efs' d with
  | nil =>
    simp only [refloatFields, Option.some.injEq] at h
    subst h; rfl
  | cons x xs ih =>
    obtain ⟨k, j⟩ := x
    simp only [refloatFields] at h
    split at h
    · rename_i j' xs' hj hxs
      injection h with h
      subst h
      simp only [decodeDeathFields, decodeDeathField_refloat hj (hn (k, j) (List.mem_cons_self _ _))]
      split
      · exact ih hxs (fun y hy => hn y (List.mem_cons_of_mem _ hy)) _
      · rfl
    · cases h

theorem decodeDeath_refloat {e e' : JSON} (h : refloat e = some e')
    (hn : ∀ efs, e = .obj efs → ∀ x ∈ efs, findField x.1 = some .count →
      ∀ l, x.2 = .num l → refloatNum l = some l)
    (o : AmqpDeath) : decodeDeath e o = decodeDeath e' o := by
  cases e with
  | null => simp only [refloat, Option.some.injEq] at h; subst h; rfl
  | bool b => simp only [refloat, Option.some.injEq] at h; subst h; rfl
  | str s => simp only [refloat, Option.some.injEq] at h; subst h; rfl
  | num l =>
    simp only [refloat, Option.map_eq_some'] at h
    obtain ⟨l', _, h'⟩ := h; subst h'; rfl
  | arr xs =>
    simp only [refloat, Option.map_eq_some'] at h
    obtain ⟨l', _, h'⟩ := h; subst h'; rfl
  | obj efs =>
    simp only [refloat, Option.map_eq_some'] at h
    obtain ⟨efs', hefs, h'⟩ := h
    subst h'
    exact decodeDeathFields_refloat hefs (hn efs rfl) o

theorem decodeHeaderFields_refloat {fs fs' : List (String × JSON)}
    (h : refloatFields fs = some fs')
    (hn : ∀ x ∈ fs, isXDeathKey x.1 = true → ∀ js, x.2 = .arr js → ∀ e ∈ js,
      ∀ efs, e = .obj efs → ∀ y ∈ efs, findField y.1 = some .count →
      ∀ l, y.2 = .num l → refloatNum l = some l)
    (hd : Headers) : decodeHeaderFields fs hd = decodeHeaderFields fs' hd := by
  induction fs generalizing fs' hd with
  | nil =>
    simp only [refloatFields, Option.some.injEq] at h
    subst h; rfl
  | cons x xs ih =>
    obtain ⟨k, j⟩ := x
    simp only [refloatFields] at h
    split at h
    · rename_i j' xs' hj hxs
      injection h with h
      subst h
      simp only [decodeHeaderFields]
      cases hk : isXDeathKey k with
      | false =>
        simp only [Bool.false_eq_true, if_false]
        exact ih hxs (fun y hy => hn y (List.mem_cons_of_mem _ hy)) _
      | true =>
        simp only [if_true]
        rw [decodeSlice_refloat decodeDeath AmqpDeath.zero hj
          (fun js hjs e he e' he' o =>
            decodeDeath_refloat he' (hn (k, j) (List.mem_cons_self _ _) hk js hjs e he) o)]
        split
        · exact ih hxs (fun y hy => hn y (List.mem_cons_of_mem _ hy)) _
        · rfl
    · cases h

/-- A number that survives `float64` is encoded as a literal that is the same
after it is read and printed again. -/
theorem refloatNum_of_numSurvives {v : Value} {l : NumLit} (hv : numSurvives v = true)
    (hj : marshalValue v = some (.num l)) : refloatNum l = some l := by
  cases v with
  | int n =>
    simp only [marshalValue, Option.some.injEq, JSON.num.injEq] at hj
    subst hj
    simpa [numSurvives] using hv
  | float f =>
    cases f with
    | finite l' =>
      simp only [marshalValue, Option.some.injEq, JSON.num.injEq] at hj
      subst hj
      simpa [numSurvives] using hv
    | nan => simp [marshalValue] at hj
    | posInf => simp [marshalValue] at hj
    | negInf => simp [marshalValue] at hj
  | null => simp [marshalValue] at hj
  | bool b => simp [marshalValue] at hj
  | str s => simp [marshalValue] at hj
  | bytes bs => simp [marshalValue] at hj
  | decimal a b => simp [marshalValue] at hj
  | time t => simp [marshalValue] at hj
  | array xs => simp [marshalValue] at hj
  | table kvs => simp [marshalValue] at hj

theorem mem_of_marshalList {vs : List Value} {js : List JSON} (h : marshalList vs = some js)
    {j : JSON} (hj : j ∈ js) : ∃ v ∈ vs, marshalValue v = some j := by
  induction vs generalizing js with
  | nil =>
    simp only [marshalList, Option.some.injEq] at h
    subst h; cases hj
  | cons x xs ih =>
    simp only [marshalList] at h
    split at h
    · rename_i j0 js0 h0 h1
      injection h with h
      subst h
      rcases List.mem_cons.mp hj with hj | hj
      · subst hj; exact ⟨x, List.mem_cons_self _ _, h0⟩
      · obtain ⟨v, hv, hvj⟩ := ih h1 hj
        exact ⟨v, List.mem_cons_of_mem _ hv, hvj⟩
    · cases h

/-- In the encoding of an entry whose counts survive `float64`, every number under
a key that is decoded into `Count` is the same after it is read and printed
again. -/
theorem counts_of_entrySurvives {e : Value} {efs : List (String × JSON)}
    (he : entrySurvives e = true) (hj : marshalValue e = some (.obj efs)) :
    ∀ y ∈ efs, findField y.1 = some .count → ∀ l, y.2 = .num l → refloatNum l = some l := by
  intro y hy hf l hl
  cases e with
  | table kvs =>
    simp only [marshalValue, Option.map_eq_some', JSON.obj.injEq] at hj
    obtain ⟨fs, hfs, hfe⟩ := hj
    subst hfe
    obtain ⟨v, hv, hvj⟩ := marshalFields_mem hfs (k := y.1) (j := y.2) hy
    simp only [entrySurvives, List.all_eq_true, Bool.or_eq_true, bne_iff_ne, ne_eq] at he
    rcases he (y.1, v) hv with h | h
    · exact absurd hf h
    · rw [hl] at hvj
      exact refloatNum_of_numSurvives h hvj
  | decimal a b =>
    simp only [marshalValue, Option.some.injEq, JSON.obj.injEq] at hj
    subst hj
    simp only [List.mem_cons, List.mem_singleton, List.not_mem_nil, or_false] at hy
    rcases hy with hy | hy
    · subst hy
      have : findField "Scale" = none := by decide
      rw [this] at hf; cases hf
    · subst hy
      have : findField "Value" = none := by decide
      rw [this] at hf; cases hf
  | null => simp [marshalValue] at hj
  | bool b => simp [marshalValue] at hj
  | int n => simp [marshalValue] at hj
  | float f => cases f <;> simp [marshalValue] at hj
  | str s => simp [marshalValue] at hj
  | bytes bs => simp [marshalValue] at hj
  | time t => simp [marshalValue] at hj
  | array xs => simp [marshalValue] at hj

/-- C7, the claim as stated fails: the count `2 ^ 53 + 1` is returned as it is
from the mapping itself, and as `2 ^ 53` from the re-encoded mapping, whose numbers
are `float64`. -/
theorem ParseDeathHeader_reencode_differs :
    ParseDeathHeader [("x-death", Value.array [.table [("count", .int 9007199254740993)]])] =
      some { AmqpDeath.zero with Count := 9007199254740993 } ∧
    (reencode [("x-death", Value.array [.table [("count", .int 9007199254740993)]])]).map
      ParseDeathHeader = some (some { AmqpDeath.zero with Count := 9007199254740992 }) := by
  decide

/-- C7, amended: for every mapping `hs` that `json.Marshal` accepts, with `hs'`
the mapping obtained by decoding `json.Marshal(hs)` back into a string-keyed
mapping: if every number that is decoded into a `Count` survives `float64` (every
integer up to `2 ^ 53` in magnitude does), then `ParseDeathHeader` gives the same
result on `hs'` as on `hs`, whatever other numbers `hs` holds. -/
theorem ParseDeathHeader_reencode (hs hs' : Table) (hre : reencode hs = some hs')
    (hc : countsSurvive hs = true) : ParseDeathHeader hs' = ParseDeathHeader hs := by
  unfold reencode at hre
  cases hm : jsonMarshal hs with
  | none => simp [hm] at hre
  | some js =>
    obtain ⟨fs, hjs, hfs⟩ := jsonMarshal_eq_some hm
    subst hjs
    simp only [hm, genericDecode] at hre
    cases hg : genericDecodeFields fs with
    | none => simp [hg] at hre
    | some kvs =>
      simp only [hg, Option.map_some', Option.some.injEq] at hre
      subst hre
      obtain ⟨fs', h1, h2⟩ := rereads_fields (marshalFields_ascending hfs)
        (rereads_marshalFields hs fs hfs) kvs hg
      have h3 : jsonMarshal kvs = some (.obj fs') := by
        simp only [jsonMarshal, marshalValue, h2, Option.map_some']
      have hn : ∀ x ∈ fs, isXDeathKey x.1 = true → ∀ js, x.2 = .arr js → ∀ e ∈ js,
          ∀ efs, e = .obj efs → ∀ y ∈ efs, findField y.1 = some .count →
          ∀ l, y.2 = .num l → refloatNum l = some l := by
        intro x hx hxk js hxj e he efs hefs
        obtain ⟨v, hv, hvj⟩ := marshalFields_mem hfs (k := x.1) (j := x.2) hx
        simp only [countsSurvive, List.all_eq_true, Bool.or_eq_true, Bool.not_eq_true'] at hc
        have hcv := hc (x.1, v) hv
        simp only [hxk, Bool.true_eq_false, false_or] at hcv
        rw [hxj] at hvj
        cases v with
        | array es =>
          simp only [marshalValue, Option.map_eq_some', JSON.arr.injEq] at hvj
          obtain ⟨js0, hjs0, hjj⟩ := hvj
          subst hjj
          obtain ⟨ev, hev, hevj⟩ := mem_of_marshalList hjs0 he
          simp only [List.all_eq_true] at hcv
          rw [hefs] at hevj
          exact counts_of_entrySurvives (hcv ev hev) hevj
        | null => simp [marshalValue] at hvj
        | bool b => simp [marshalValue] at hvj
        | int n => simp [marshalValue] at hvj
        | float f => cases f <;> simp [marshalValue] at hvj
        | str s => simp [marshalValue] at hvj
        | bytes bs => simp [marshalValue] at hvj
        | decimal a b => simp [marshalValue] at hvj
        | time t => simp [marshalValue] at hvj
        | table kvs => simp [marshalValue] at hvj
      have hu : jsonUnmarshal (.obj fs') = jsonUnmarshal (.obj fs) := by
        simp only [jsonUnmarshal, decodeHeaderFields_refloat h1 hn]
      simp only [ParseDeathHeader, h3, hm, hu]

/-- Witness of C7 amended: a mapping with a count of 2 and, under another key, the
number `2 ^ 53 + 1`, which does not survive `float64`. -/
theorem ParseDeathHeader_reencode_witness :
    ParseDeathHeader [("big", Value.float (.finite (.int 9007199254740992))),
      ("x-death", .array [.table [("count", .float (.finite (.int 2))),
        ("exchange", .str "dlx")]])] =
    ParseDeathHeader [("big", Value.int 9007199254740993),
      ("x-death", .array [.table [("count", .int 2), ("exchange", .str "dlx")]])] :=
  ParseDeathHeader_reencode
    [("big", Value.int 9007199254740993),
      ("x-death", .array [.table [("count", .int 2), ("exchange", .str "dlx")]])]
    [("big", Value.float (.finite (.int 9007199254740992))),
      ("x-death", .array [.table [("count", .float (.finite (.int 2))),
        ("exchange", .str "dlx")]])] rfl (by decide)

end Helpers
